import Mathlib

/-!
Shallow embedding of the branch-tracing and column-layout engine in
src/src/git-graph/src/graph.rs.  Rust structs become Lean structures,
`&mut` state becomes explicit state passing, `Result<_, String>` becomes
`Except String _`, machine integers become `Nat`/`Int` with explicit
`% 256` / `% 2^64` where the source casts, and the git2 `Repository`
becomes a record of the pure data the code queries from it (object
store, branch refs, tag refs).  Compiled regexes are modelled as their
matching predicates; `to_terminal_color` (from a module outside the
provided sources, `print::colors`) is a parameter of the settings.
-/

namespace GitGraphModel

/-- git object id (git2 `Oid`), abstracted to a natural number. -/
abbrev Oid := Nat

/-- data of one commit as the revision walk / object store yields it:
id, ordered parent ids, summary text (None models a non-UTF-8 summary). -/
structure CommitData where
  oid : Oid
  parents : List Oid
  summary : Option String
  deriving Repr, DecidableEq, Inhabited

/-- one entry of `repository.branches(..)`: full ref name (`None` models a
non-UTF-8 name), target id (`None` models an unborn branch), and whether
the iterator labelled it `BranchType::Remote`. -/
structure RawBranch where
  name : Option String
  target : Option Oid
  isRemote : Bool
  deriving Repr, DecidableEq, Inhabited

/-- one entry of `tag_foreach` plus what `find_tag` answers for it.
`utf8Name` is the result of `std::str::from_utf8(&name[5..])` on the raw
ref-name bytes: `ok` holds the decoded text, `error` the `Utf8Error`
message.  `tagTargetId = some t` models `find_tag` succeeding with
`target_id() = t`; `none` models a lightweight tag (`find_tag` fails). -/
structure RawTag where
  oid : Oid
  utf8Name : Except String String
  tagTargetId : Option Oid
  deriving Repr, Inhabited

/-- the repository as the pure data the graph code reads from git2. -/
structure Repo where
  objects : List CommitData
  branchRefs : List RawBranch
  tagRefs : List RawTag
  deriving Repr, Inhabited

/-- `repository.find_commit(oid)`: `none` models `Err`. -/
def Repo.findCommit (r : Repo) (oid : Oid) : Option CommitData :=
  r.objects.find? (fun c => c.oid == oid)

/-- struct `CommitInfo` of graph.rs. -/
structure CommitInfo where
  oid : Oid
  isMerge : Bool
  parents : Option Oid × Option Oid
  children : List Oid
  branches : List Nat
  tags : List Nat
  branchTrace : Option Nat
  deriving Repr, DecidableEq, Inhabited

/-- `CommitInfo::new`: `is_merge = parent_count > 1`,
`parents = [parent_id(0).ok(), parent_id(1).ok()]`. -/
def CommitInfo.ofData (c : CommitData) : CommitInfo :=
  { oid := c.oid
    isMerge := c.parents.length > 1
    parents := (c.parents.get? 0, c.parents.get? 1)
    children := []
    branches := []
    tags := []
    branchTrace := none }

/-- struct `BranchVis` of graph.rs (`term_color : u8` as `Nat`). -/
structure BranchVis where
  orderGroup : Nat
  targetOrderGroup : Option Nat
  sourceOrderGroup : Option Nat
  termColor : Nat
  svgColor : String
  column : Option Nat
  deriving Repr, DecidableEq, Inhabited

/-- `BranchVis::new`. -/
def BranchVis.make (orderGroup : Nat) (termColor : Nat) (svgColor : String) : BranchVis :=
  { orderGroup, targetOrderGroup := none, sourceOrderGroup := none,
    termColor, svgColor, column := none }

/-- struct `BranchInfo` of graph.rs (`persistence : u8` as `Nat`,
kept below 256 by explicit `% 256` at each `as u8` cast site). -/
structure BranchInfo where
  target : Oid
  mergeTarget : Option Oid
  name : String
  persistence : Nat
  isRemote : Bool
  isMerged : Bool
  isTag : Bool
  visual : BranchVis
  range : Option Nat × Option Nat
  deriving Repr, DecidableEq, Inhabited

/-- `BranchInfo::new`: the range starts as `(end_index, None)`. -/
def BranchInfo.make (target : Oid) (mergeTarget : Option Oid) (name : String)
    (persistence : Nat) (isRemote isMerged isTag : Bool) (visual : BranchVis)
    (endIndex : Option Nat) : BranchInfo :=
  { target, mergeTarget, name, persistence, isRemote, isMerged, isTag, visual,
    range := (endIndex, none) }

/-- a compiled regex, modelled as its matching predicate (`is_match`). -/
abbrev Pattern := String → Bool

/-- a merge-summary pattern, modelled by its single-capture extraction:
`none` = no match.  The source additionally requires the regex to carry
exactly one capture group, a static property of the pattern itself. -/
abbrev MergePattern := String → Option String

/-- the fields of `BranchSettings` that graph.rs reads. -/
structure BranchSettingsModel where
  persistence : List Pattern
  order : List Pattern
  terminalColors : List (Pattern × List String)
  terminalColorsUnknown : List String
  svgColors : List (Pattern × List String)
  svgColorsUnknown : List String

/-- enum `BranchOrder` of the settings module. -/
inductive BranchOrderModel where
  | shortestFirst (forward : Bool)
  | longestFirst (forward : Bool)

/-- the fields of `Settings` that graph.rs reads, plus the external
`to_terminal_color` conversion as an explicit parameter. -/
structure SettingsModel where
  includeRemote : Bool
  branches : BranchSettingsModel
  mergePatterns : List MergePattern
  branchOrder : BranchOrderModel
  termColorOf : String → Except String Nat

/-- `const ORIGIN: &str = "origin/";` -/
def ORIGIN : String := "origin/"

/-- Rust `&s[n..]` on the ASCII names involved: dropping the first `n`
characters (byte positions and char positions coincide for ASCII). -/
def strDrop (s : String) (n : Nat) : String := ⟨s.data.drop n⟩

/-- Rust `s.starts_with(p)`. -/
def strStartsWith (s p : String) : Bool := p.data.isPrefixOf s.data

/-- `branch_order`: index of the first pattern matching the name (with the
remote-tracking form also tried), or the table length if none matches. -/
def branchOrder (name : String) (order : List Pattern) : Nat :=
  match order.findIdx?
      (fun b => (strStartsWith name ORIGIN && b (strDrop name ORIGIN.length)) || b name) with
  | some i => i
  | none => order.length

/-- `branch_color`: first matching pattern row wins; the colour is picked
round-robin by `counter % len`.  An empty colour list makes the source
panic on the index; the model then returns `default`. -/
def branchColor {T : Type} [Inhabited T] (name : String) (order : List (Pattern × List T))
    (unknown : List T) (counter : Nat) : T :=
  match order.find?
      (fun pc => (strStartsWith name ORIGIN && pc.1 (strDrop name ORIGIN.length)) || pc.1 name) with
  | some pc => (pc.2.get? (counter % pc.2.length)).getD default
  | none => (unknown.get? (counter % unknown.length)).getD default

/-- `parse_merge_summary`: first pattern in order that captures a name. -/
def parseMergeSummary (summary : String) (patterns : List MergePattern) : Option String :=
  patterns.findSome? (fun p => p summary)

/-- in-place update of one list entry, modelling `&mut v[i]` mutation;
out-of-range indices leave the list unchanged. -/
def updateAt {α : Type} (l : List α) (i : Nat) (f : α → α) : List α :=
  match l[i]? with
  | some x => l.set i (f x)
  | none => l

/-- the `indices: HashMap<Oid, usize>` built in `GitGraph::new`, as a
lookup function over the walked sequence (the map sends each walked oid
to its position; oids are unique in a real revision walk). -/
def indicesOf (walked : List CommitData) (oid : Oid) : Option Nat :=
  walked.findIdx? (fun c => c.oid == oid)

/-- one oid slot of `assign_children`: push the child oid onto the
parent's `children` when the parent is indexed. -/
def childStep (indices : Oid → Option Nat) (childOid : Oid)
    (cs : List CommitInfo) (po : Option Oid) : List CommitInfo :=
  match po.bind indices with
  | some parIdx => updateAt cs parIdx (fun p => { p with children := p.children ++ [childOid] })
  | none => cs

/-- the body of `assign_children` for one commit position. -/
def assignChildrenStep (indices : Oid → Option Nat) (cs : List CommitInfo)
    (idx : Nat) : List CommitInfo :=
  let info := cs.getD idx default
  childStep indices info.oid (childStep indices info.oid cs info.parents.1) info.parents.2

/-- `assign_children`: one pass over all commit positions. -/
def assignChildren (indices : Oid → Option Nat) (cs : List CommitInfo) : List CommitInfo :=
  (List.range cs.length).foldl (assignChildrenStep indices) cs

/-- the branch-ref phase of `extract_branches` (the `filter_map` over
`repository.branches(filter)` collected into a `Result`): entries with an
unreadable name or no target are skipped, `counter` advances once per kept
entry, the ref-namespace prefix is stripped by byte position (11 for
local, 13 for remote), and a failing terminal-colour conversion aborts. -/
def extractBranchRefs (settings : SettingsModel) (indices : Oid → Option Nat) :
    List RawBranch → Nat → Except String (List BranchInfo × Nat)
  | [], counter => .ok ([], counter)
  | br :: rest, counter =>
    match br.name, br.target with
    | some n, some t =>
      let counter := counter + 1
      let startIndex := if br.isRemote then 13 else 11
      let name := strDrop n startIndex
      let endIndex := indices t
      match settings.termColorOf (branchColor name settings.branches.terminalColors
          settings.branches.terminalColorsUnknown counter) with
      | .error e => .error e
      | .ok termColor =>
        let info := BranchInfo.make t none name
          ((branchOrder name settings.branches.persistence) % 256) br.isRemote false false
          (BranchVis.make (branchOrder name settings.branches.order) termColor
            (branchColor name settings.branches.svgColors
              settings.branches.svgColorsUnknown counter))
          endIndex
        match extractBranchRefs settings indices rest counter with
        | .error e => .error e
        | .ok (bs, c) => .ok (info :: bs, c)
    | _, _ => extractBranchRefs settings indices rest counter

/-- the merge-summary phase of `extract_branches`: for every commit the
object is re-resolved (a failure aborts), and for each merge commit with
a summary a merge-derived candidate is recorded whose target is the
second parent, whose merge-target is the merge commit itself and whose
range start hint is the merge commit's index + 1. -/
def extractMergeBranches (repo : Repo) (settings : SettingsModel) :
    List CommitInfo → Nat → Nat → Except String (List BranchInfo × Nat)
  | [], _, counter => .ok ([], counter)
  | info :: rest, idx, counter =>
    match repo.findCommit info.oid with
    | none => .error "could not find commit"
    | some commit =>
      if info.isMerge then
        match commit.summary with
        | some summary =>
          let counter := counter + 1
          match commit.parents.get? 1 with
          | none => .error "could not find parent 1"
          | some parentOid =>
            let branchName := (parseMergeSummary summary settings.mergePatterns).getD "unknown"
            let persistence := (branchOrder branchName settings.branches.persistence) % 256
            let pos := branchOrder branchName settings.branches.order
            match settings.termColorOf (branchColor branchName settings.branches.terminalColors
                settings.branches.terminalColorsUnknown counter) with
            | .error e => .error e
            | .ok termCol =>
              let svgCol := branchColor branchName settings.branches.svgColors
                settings.branches.svgColorsUnknown counter
              let bi := BranchInfo.make parentOid (some info.oid) branchName persistence
                false true false (BranchVis.make pos termCol svgCol) (some (idx + 1))
              match extractMergeBranches repo settings rest (idx + 1) counter with
              | .error e => .error e
              | .ok (bs, c) => .ok (bi :: bs, c)
        | none => extractMergeBranches repo settings rest (idx + 1) counter
      else extractMergeBranches repo settings rest (idx + 1) counter

/-- the key of `valid_branches.sort_by_cached_key(|b| (b.persistence, !b.is_merged))`:
a Rust `bool` orders `false < true`, encoded as 0 and 1. -/
def sortKey (b : BranchInfo) : Nat × Nat :=
  (b.persistence, if b.isMerged then 0 else 1)

/-- lexicographic comparison of `sortKey`, the order the stable sort uses. -/
def keyLe (a b : BranchInfo) : Bool :=
  Nat.blt (sortKey a).1 (sortKey b).1 ||
    ((sortKey a).1 == (sortKey b).1 && Nat.ble (sortKey a).2 (sortKey b).2)

/-- the tag phase of `extract_branches`: the raw name bytes past position
5 must decode as UTF-8 (a failure aborts via `?`), lightweight tags and
tags of unindexed commits are skipped, `counter` advances once per kept
tag, and the persistence rank is `persistence.len() as u8 + 1`. -/
def extractTags (settings : SettingsModel) (indices : Oid → Option Nat) :
    List RawTag → Nat → Except String (List BranchInfo)
  | [], _ => .ok []
  | t :: rest, counter =>
    match t.utf8Name with
    | .error e => .error e
    | .ok name =>
      match t.tagTargetId with
      | some targetId =>
        match indices targetId with
        | some targetIndex =>
          let counter := counter + 1
          match settings.termColorOf (branchColor name settings.branches.terminalColors
              settings.branches.terminalColorsUnknown counter) with
          | .error e => .error e
          | .ok termCol =>
            let bi := BranchInfo.make targetId none name
              ((settings.branches.persistence.length % 256 + 1) % 256) false false true
              (BranchVis.make (branchOrder name settings.branches.order) termCol
                (branchColor name settings.branches.svgColors
                  settings.branches.svgColorsUnknown counter))
              (some targetIndex)
            match extractTags settings indices rest counter with
            | .error e => .error e
            | .ok bs => .ok (bi :: bs)
        | none => extractTags settings indices rest counter
      | none => extractTags settings indices rest counter

/-- `extract_branches`: branch refs (remote ones only when configured),
then merge-derived candidates, a stable sort by `(persistence, !is_merged)`,
then tags appended at the end. -/
def extractBranches (repo : Repo) (commits : List CommitInfo) (indices : Oid → Option Nat)
    (settings : SettingsModel) : Except String (List BranchInfo) :=
  let actual := if settings.includeRemote then repo.branchRefs
                else repo.branchRefs.filter (fun b => !b.isRemote)
  match extractBranchRefs settings indices actual 0 with
  | .error e => .error e
  | .ok (validBranches, counter) =>
    match extractMergeBranches repo settings commits 0 counter with
    | .error e => .error e
    | .ok (mergedBranches, counter) =>
      let sorted := List.insertionSort (fun a b => keyLe a b = true)
        (validBranches ++ mergedBranches)
      match extractTags settings indices repo.tagRefs counter with
      | .error e => .error e
      | .ok tagBranches => .ok (sorted ++ tagBranches)

/-- outcome of the `while let` walk of `trace_branch`: the mutated
arrays, the computed `start_index`, `any_assigned`, and the pending
`Err` of a failed `?` (mutations made before the failure persist,
because the Rust arrays are `&mut` borrows). -/
structure WalkOut where
  commits : List CommitInfo
  branches : List BranchInfo
  startIndex : Option Int
  anyAssigned : Bool
  err : Option String
  deriving Repr, Inhabited

/-- lines 586–593 of graph.rs: the previous owner's recorded range is
either extended down to the reached position or invalidated when the
position lies after its recorded end. -/
def rangeAdjust (oldRange : Option Nat × Option Nat) (index : Nat)
    (ob : BranchInfo) : BranchInfo :=
  { ob with range :=
    match oldRange.2 with
    | some oldEnd => if oldEnd < index then (none, none)
                     else (some index, ob.range.2)
    | none => (some index, ob.range.2) }

/-- line 626 of graph.rs: `info.branch_trace = Some(branch_index)`. -/
def claimBy (k : Nat) (i : CommitInfo) : CommitInfo :=
  { i with branchTrace := some k }

/-- the `while let Some(index) = indices.get(&curr_oid)` loop of
`trace_branch`.  `fuel` bounds the number of iterations; on inputs whose
first-parent links always lead to strictly later positions (every real
topologically ordered walk) the loop runs at most `commits.length`
iterations, so the fuel chosen by `traceBranch` is never exhausted.
When the reached commit is already owned by a branch of the same name
with a compatible range start, the source adjusts the previous owner's
range and then falls through — without `break` — to the assignment
`info.branch_trace = Some(branch_index)` at lines 626–639 (claim the
commit; resolve its object, a failure being an `Err` propagated by `?`;
stop at a root recording `start_index = index`; else advance to the
first parent).  Those shared lines appear inlined twice below, once for
the fall-through and once for the unowned case. -/
def traceWalk (repo : Repo) (indices : Oid → Option Nat) (fuel : Nat)
    (cs : List CommitInfo) (bs : List BranchInfo) (currOid : Oid) (k : Nat)
    (prev : Option Nat) (si : Option Int) (aa : Bool) : WalkOut :=
  match fuel with
  | 0 => ⟨cs, bs, si, aa, none⟩
  | fuel + 1 =>
    match indices currOid with
    | none => ⟨cs, bs, si, aa, none⟩
    | some index =>
      let info := cs.getD index default
      match info.branchTrace with
      | some oldTrace =>
        let oldBranch := bs.getD oldTrace default
        let oldName := oldBranch.name
        let oldTerm := oldBranch.visual.termColor
        let oldSvg := oldBranch.visual.svgColor
        let oldRange := oldBranch.range
        let newName := (bs.getD k default).name
        let oldEnd0 := oldRange.1.getD 0
        let newEnd0 := (bs.getD k default).range.1.getD 0
        if newName = oldName ∧ newEnd0 ≤ oldEnd0 then
          let bs' := updateAt bs oldTrace (rangeAdjust oldRange index)
          let cs' := updateAt cs index (claimBy k)
          match repo.findCommit currOid with
          | none => ⟨cs', bs', si, true, some "could not find commit"⟩
          | some commit =>
            if commit.parents.length == 0 then
              ⟨cs', bs', some (index : Int), true, none⟩
            else
              match commit.parents.get? 0 with
              | none => ⟨cs', bs', si, true, some "could not find parent 0"⟩
              | some p => traceWalk repo indices fuel cs' bs' p k (some index) si true
        else
          let bs' := if strStartsWith (bs.getD k default).name ORIGIN
              ∧ strDrop (bs.getD k default).name 7 = oldName then
              updateAt bs k (fun b => { b with visual :=
                { b.visual with termColor := oldTerm, svgColor := oldSvg } })
            else bs
          let si' : Option Int :=
            match prev with
            | none => some ((index : Int) - 1)
            | some prevIndex =>
              if (cs.getD prevIndex default).isMerge then
                let temp := info.children.foldl (fun t sib =>
                  if sib ≠ currOid then
                    let sibIdx := (indices sib).getD 0
                    if t < sibIdx then sibIdx else t
                  else t) prevIndex
                some (temp : Int)
              else some ((index : Int) - 1)
          ⟨cs, bs', si', aa, none⟩
      | none =>
        let cs' := updateAt cs index (claimBy k)
        match repo.findCommit currOid with
        | none => ⟨cs', bs, si, true, some "could not find commit"⟩
        | some commit =>
          if commit.parents.length == 0 then
            ⟨cs', bs, some (index : Int), true, none⟩
          else
            match commit.parents.get? 0 with
            | none => ⟨cs', bs, si, true, some "could not find parent 0"⟩
            | some p => traceWalk repo indices fuel cs' bs p k (some index) si true

/-- `start_index as usize`: an `i32` sign-extended and reinterpreted as a
64-bit unsigned value. -/
def usizeOfInt (i : Int) : Nat := (i % 18446744073709551616).toNat

/-- result of `trace_branch`: mutated arrays plus `Result<bool, Error>`. -/
structure TraceOut where
  commits : List CommitInfo
  branches : List BranchInfo
  result : Except String Bool
  deriving Repr, Inhabited

/-- `trace_branch`: run the walk, then — only when no `?` fired —
reconcile the candidate's range against the recorded start hint:
a computed boundary before the hint invalidates the range entirely. -/
def traceBranch (repo : Repo) (indices : Oid → Option Nat)
    (cs : List CommitInfo) (bs : List BranchInfo) (oid : Oid) (k : Nat) : TraceOut :=
  let w := traceWalk repo indices (cs.length + 1) cs bs oid k none none false
  match w.err with
  | some e => ⟨w.commits, w.branches, .error e⟩
  | none =>
    let branch := w.branches.getD k default
    let newRange : Option Nat × Option Nat :=
      match branch.range.1 with
      | some e =>
        match w.startIndex with
        | some si =>
          if si < (e : Int) then (none, none)
          else (branch.range.1, some (usizeOfInt si))
        | none => (branch.range.1, none)
      | none => (none, w.startIndex.map usizeOfInt)
    ⟨w.commits, updateAt w.branches k (fun b => { b with range := newRange }),
      .ok w.anyAssigned⟩

/-- folding state of the `(0..branches.len()).map(..)` pass in
`assign_branches` that builds `index_map` while tracing. -/
structure CoreState where
  commits : List CommitInfo
  branches : List BranchInfo
  branchIdx : Nat
  indexMap : List (Option Nat)
  deriving Repr, Inhabited

/-- one `old_idx` step of that pass: record the candidate on its tip
commit (tags to `tags`, real branches to `branches`), trace it, and keep
it (`Some(branch_idx)`) when it claimed anything or is not merge-derived.
A failed trace is `unwrap_or(false)`: the error is discarded and the
candidate counts as having claimed nothing. -/
def coreStep (repo : Repo) (indices : Oid → Option Nat)
    (st : CoreState) (oldIdx : Nat) : CoreState :=
  let b := st.branches.getD oldIdx default
  match indices b.target with
  | some idx =>
    let cs := updateAt st.commits idx (fun info =>
      if b.isTag then { info with tags := info.tags ++ [oldIdx] }
      else if !b.isMerged then { info with branches := info.branches ++ [oldIdx] }
      else info)
    let oid := (cs.getD idx default).oid
    let t := traceBranch repo indices cs st.branches oid oldIdx
    let anyAssigned := match t.result with | .ok a => a | .error _ => false
    if anyAssigned || !b.isMerged then
      { commits := t.commits, branches := t.branches,
        branchIdx := st.branchIdx + 1, indexMap := st.indexMap ++ [some st.branchIdx] }
    else
      { commits := t.commits, branches := t.branches,
        branchIdx := st.branchIdx, indexMap := st.indexMap ++ [none] }
  | none => { st with indexMap := st.indexMap ++ [none] }

/-- the whole tracing pass over all candidates, in catalog order. -/
def coreFold (repo : Repo) (indices : Oid → Option Nat)
    (cs : List CommitInfo) (bs : List BranchInfo) : CoreState :=
  (List.range bs.length).foldl (coreStep repo indices) ⟨cs, bs, 0, []⟩

/-- `commit_count`: per-candidate number of owned commits. -/
def commitCountFold (cs : List CommitInfo) (nBranches : Nat) : List Nat :=
  cs.foldl (fun acc info =>
    match info.branchTrace with
    | some trace => updateAt acc trace (· + 1)
    | none => acc) (List.replicate nBranches 0)

/-- the second pass over `index_map`: drop merge-derived non-tag
candidates that own nothing, and close the numbering gap by subtracting
the running count of dropped candidates. -/
def dropFold : List (Option Nat × Nat × Bool) → Nat → List (Option Nat)
  | [], _ => []
  | (none, _, _) :: rest, sk => none :: dropFold rest sk
  | (some m, cnt, dropFlag) :: rest, sk =>
    if cnt == 0 && dropFlag then none :: dropFold rest (sk + 1)
    else some (m - sk) :: dropFold rest sk

/-- `index_map` after both passes. -/
def finalIndexMap (st : CoreState) (counts : List Nat) : List (Option Nat) :=
  dropFold (st.indexMap.zip (counts.zip (st.branches.map (fun b => b.isMerged && !b.isTag)))) 0

/-- rewrite one commit's owner and terminating branch/tag references
through `index_map` (only commits that have an owner are rewritten; the
`.unwrap()` on branch/tag entries can never be `None`, because entries
are only recorded for non-merged candidates, which are never dropped). -/
def remapCommit (im : List (Option Nat)) (info : CommitInfo) : CommitInfo :=
  match info.branchTrace with
  | some trace =>
    { info with
      branchTrace := im.getD trace none
      branches := info.branches.map (fun br => (im.getD br none).getD 0)
      tags := info.tags.map (fun tg => (im.getD tg none).getD 0) }
  | none => info

/-- keep the branches whose `index_map` entry survived. -/
def filterBranches (bs : List BranchInfo) (im : List (Option Nat)) : List BranchInfo :=
  (bs.zip im).filterMap (fun p => if p.2.isSome then some p.1 else none)

/-- the part of `assign_branches` after `extract_branches` (lines
305–382): trace all candidates, count, drop, renumber, rewrite. -/
def assignBranchesCore (repo : Repo) (indices : Oid → Option Nat)
    (cs : List CommitInfo) (branches0 : List BranchInfo) :
    List CommitInfo × List BranchInfo :=
  let st := coreFold repo indices cs branches0
  let counts := commitCountFold st.commits branches0.length
  let im := finalIndexMap st counts
  (st.commits.map (remapCommit im), filterBranches st.branches im)

/-- `assign_branches`. -/
def assignBranches (repo : Repo) (cs : List CommitInfo) (indices : Oid → Option Nat)
    (settings : SettingsModel) : Except String (List CommitInfo × List BranchInfo) :=
  match extractBranches repo cs indices settings with
  | .error e => .error e
  | .ok branches0 => .ok (assignBranchesCore repo indices cs branches0)

/-- `branch_commits`: per candidate, the positions of its owned commits
in sequence order (an out-of-range owner index is skipped, mirroring the
`get_mut` guard). -/
def branchCommitsOf (cs : List CommitInfo) (nBranches : Nat) : List (List Nat) :=
  cs.enum.foldl (fun acc p =>
    match p.2.branchTrace with
    | some branchIdx => updateAt acc branchIdx (fun l => l ++ [p.1])
    | none => acc) (List.replicate nBranches [])

/-- source-group hint: scanning the branch's owned commits newest-first,
the order group of the first differing-owner parent. -/
def sourceGroupOf (cs : List CommitInfo) (indices : Oid → Option Nat)
    (bs : List BranchInfo) (branchIdx : Nat) (commitList : List Nat) : Option Nat :=
  commitList.reverse.findSome? (fun commitIdx =>
    let info := cs.getD commitIdx default
    ([info.parents.1, info.parents.2].filterMap id).findSome? (fun parentOid =>
      match (indices parentOid).bind (fun pidx => (cs.getD pidx default).branchTrace) with
      | some pb => if pb ≠ branchIdx then some ((bs.getD pb default).visual.orderGroup)
                   else none
      | none => none))

/-- target-group hint: the owner of the merge-target commit (if a
different branch), else the first differing-owner child of the branch's
newest owned commit. -/
def targetGroupOf (cs : List CommitInfo) (indices : Oid → Option Nat)
    (bs : List BranchInfo) (branchIdx : Nat) (commitList : List Nat) : Option Nat :=
  let viaMerge :=
    match (bs.getD branchIdx default).mergeTarget with
    | some targetOid =>
      match (indices targetOid).bind (fun ti => (cs.getD ti default).branchTrace) with
      | some tb => if tb ≠ branchIdx then some ((bs.getD tb default).visual.orderGroup)
                   else none
      | none => none
    | none => none
  match viaMerge with
  | some g => some g
  | none =>
    match commitList.head? with
    | some headIdx =>
      (cs.getD headIdx default).children.findSome? (fun child =>
        match (indices child).bind (fun ci => (cs.getD ci default).branchTrace) with
        | some cb => if cb ≠ branchIdx then some ((bs.getD cb default).visual.orderGroup)
                     else none
        | none => none)
    | none => none

/-- `assign_sources_targets`. -/
def assignSourcesTargets (cs : List CommitInfo) (indices : Oid → Option Nat)
    (bs : List BranchInfo) : List BranchInfo :=
  let bc := branchCommitsOf cs bs.length
  (List.range bs.length).foldl (fun cur branchIdx =>
    let commitList := bc.getD branchIdx []
    let sg := sourceGroupOf cs indices cur branchIdx commitList
    let tg := targetGroupOf cs indices cur branchIdx commitList
    updateAt cur branchIdx (fun b => { b with visual :=
      { b.visual with sourceOrderGroup := sg, targetOrderGroup := tg } })) bs

/-- one row of `branches_sort` in `assign_branch_columns`. -/
structure ColEntry where
  branchIdx : Nat
  start : Nat
  endPos : Nat
  groupHint : Nat
  lengthKey : Int
  startKey : Int
  deriving Repr, DecidableEq, Inhabited

/-- the `filter_map` building `branches_sort`: branches whose range is
`(None, None)` are excluded; absent bounds default to 0 and to the last
sequence position. -/
def columnSortEntries (branches : List BranchInfo) (lengthFactor startFactor : Int)
    (defaultEnd : Nat) : List ColEntry :=
  branches.enum.filterMap (fun p =>
    let br := p.2
    if br.range.1.isNone ∧ br.range.2.isNone then none
    else
      let start := br.range.1.getD 0
      let e := br.range.2.getD defaultEnd
      let sourceGroup := br.visual.sourceOrderGroup.getD br.visual.orderGroup
      let targetGroup := br.visual.targetOrderGroup.getD br.visual.orderGroup
      some { branchIdx := p.1, start := start, endPos := e,
             groupHint := max sourceGroup targetGroup,
             lengthKey := ((e : Int) - (start : Int)) * lengthFactor,
             startKey := (start : Int) * startFactor })

/-- lexicographic key order `(group_hint, length_key, start_key)` of the
stable sort over `branches_sort`. -/
def colEntryLe (a b : ColEntry) : Bool :=
  Nat.blt a.groupHint b.groupHint ||
  (a.groupHint == b.groupHint &&
    (decide (a.lengthKey < b.lengthKey) ||
     (a.lengthKey == b.lengthKey && decide (a.startKey ≤ b.startKey))))

/-- `column_occ.iter().any(|(s, e)| start <= *e && end >= *s)`. -/
def intervalsConflict (colOcc : List (Nat × Nat)) (start e : Nat) : Bool :=
  colOcc.any (fun se => start ≤ se.2 && e ≥ se.1)

/-- scan of the existing columns of the group: the first column with no
interval overlap that is not the forbidden merge-target column. -/
def findColumnFrom (start e : Nat) (conflictColumn : Option Nat) :
    List (List (Nat × Nat)) → Nat → Option Nat
  | [], _ => none
  | colOcc :: rest, i =>
    if ¬(intervalsConflict colOcc start e = true) ∧ conflictColumn ≠ some i
    then some i
    else findColumnFrom start e conflictColumn rest (i + 1)

/-- placement of one sorted entry: pick the first qualifying column of
the branch's own group (the merge-target branch's current column in the
same group is disqualified — the source computes this lookup inside the
per-column loop, where it is loop-invariant), else open a new column;
record the interval and the (group-local) column. -/
def placeBranch (cs : List CommitInfo) (indices : Oid → Option Nat)
    (acc : List BranchInfo × List (List (List (Nat × Nat)))) (entry : ColEntry) :
    List BranchInfo × List (List (List (Nat × Nat))) :=
  let branches := acc.1
  let occupied := acc.2
  let branchGroup := (branches.getD entry.branchIdx default).visual.orderGroup
  let mergeTarget := (branches.getD entry.branchIdx default).mergeTarget
  let groupOcc := occupied.getD branchGroup []
  let conflictColumn : Option Nat :=
    match mergeTarget with
    | some targetOid =>
      match (indices targetOid).bind (fun ti => (cs.getD ti default).branchTrace) with
      | some tb =>
        let mergeBranch := branches.getD tb default
        if mergeBranch.visual.orderGroup == branchGroup then mergeBranch.visual.column
        else none
      | none => none
    | none => none
  let selected := (findColumnFrom entry.start entry.endPos conflictColumn groupOcc 0).getD
    groupOcc.length
  let groupOcc' := if selected == groupOcc.length then groupOcc ++ [[]] else groupOcc
  let groupOcc'' := updateAt groupOcc' selected (fun col => col ++ [(entry.start, entry.endPos)])
  (updateAt branches entry.branchIdx (fun b => { b with visual :=
      { b.visual with column := some selected } }),
   updateAt occupied branchGroup (fun _ => groupOcc''))

/-- the running column-count offsets (`scan` over the groups). -/
def cumulativeLengths : List Nat → Nat → List Nat
  | [], _ => []
  | g :: rest, acc => (acc + g) :: cumulativeLengths rest (acc + g)

/-- `assign_branch_columns`, also exposing the final `occupied` structure
that the source drops on return. -/
def assignBranchColumnsImpl (cs : List CommitInfo) (indices : Oid → Option Nat)
    (branches : List BranchInfo) (settings : BranchSettingsModel)
    (shortestFirst forward : Bool) :
    List BranchInfo × List (List (List (Nat × Nat))) :=
  let occupied0 : List (List (List (Nat × Nat))) := List.replicate (settings.order.length + 1) []
  let lengthFactor : Int := if shortestFirst then 1 else -1
  let startFactor : Int := if forward then 1 else -1
  let defaultEnd := cs.length - 1
  let entries := List.insertionSort (fun a b => colEntryLe a b = true)
    (columnSortEntries branches lengthFactor startFactor defaultEnd)
  let placed := entries.foldl (placeBranch cs indices) (branches, occupied0)
  let groupOffset := cumulativeLengths (placed.2.map List.length) 0
  let bs2 := placed.1.map (fun b =>
    match b.visual.column with
    | some column =>
      let offset := if b.visual.orderGroup == 0 then 0
                    else groupOffset.getD (b.visual.orderGroup - 1) 0
      { b with visual := { b.visual with column := some (column + offset) } }
    | none => b)
  (bs2, placed.2)

/-- `assign_branch_columns` as the source exposes it. -/
def assignBranchColumns (cs : List CommitInfo) (indices : Oid → Option Nat)
    (branches : List BranchInfo) (settings : BranchSettingsModel)
    (shortestFirst forward : Bool) : List BranchInfo :=
  (assignBranchColumnsImpl cs indices branches settings shortestFirst forward).1

/-- input of the graph stage: the already-ordered, already-filtered
commit sequence the revision walk produced (stash exclusion and the
maximum-count cutoff happen upstream of the modelled code), the
repository data, and the settings. -/
structure GraphInput where
  walked : List CommitData
  repo : Repo
  settings : SettingsModel

/-- the fields of `GitGraph` that the modelled code computes (the
repository handle and the HEAD snapshot are passthrough data with no
bearing on the claims). -/
structure GGraph where
  commits : List CommitInfo
  allBranches : List BranchInfo
  branches : List Nat
  tags : List Nat
  deriving Repr, Inhabited

/-- lookup in a `HashMap` built by collecting key/value pairs: a later
insert of the same key overwrites, hence the last matching pair wins. -/
def hashLookup {β : Type} (l : List (Nat × β)) (k : Nat) : Option β :=
  (l.reverse.find? (fun p => p.1 == k)).map (·.2)

/-- the `index_map: HashMap<usize, Option<&usize>>` of `GitGraph::new`,
collected from the enumeration of `indices` in the order `iterOrder`. -/
def buildIndexMap (iterOrder : List (Oid × Nat)) (fi : Oid → Option Nat) :
    Nat → Option (Option Nat) :=
  hashLookup (iterOrder.map (fun p => (p.2, fi p.1)))

/-- the `while idx0.is_none() { start_idx += 1; .. }` loop advancing a
range start to the nearest surviving commit; a missing key is the
`index_map[&start_idx]` panic, modelled as an error. -/
def remapUp (im : Nat → Option (Option Nat)) : Nat → Nat → Except String Nat
  | _, 0 => .error "panic: no surviving commit at or past range start"
  | p, fuel + 1 =>
    match im p with
    | none => .error "panic: index not in map"
    | some none => remapUp im (p + 1) fuel
    | some (some f) => .ok f

/-- the symmetric loop retreating a range end (`end_idx -= 1`); stepping
below position 0 is the usize underflow panic, modelled as an error. -/
def remapDown (im : Nat → Option (Option Nat)) : Nat → Nat → Except String Nat
  | _, 0 => .error "panic: no surviving commit at or before range end"
  | p, fuel + 1 =>
    match im p with
    | none => .error "panic: index not in map"
    | some none =>
      if p == 0 then .error "panic: usize underflow"
      else remapDown im (p - 1) fuel
    | some (some f) => .ok f

/-- re-express one branch's range bounds against the filtered sequence. -/
def remapBranchRange (im : Nat → Option (Option Nat)) (fuel : Nat) (b : BranchInfo) :
    Except String BranchInfo :=
  match b.range.1 with
  | some startIdx =>
    match remapUp im startIdx fuel with
    | .error e => .error e
    | .ok s =>
      match b.range.2 with
      | some endIdx =>
        match remapDown im endIdx fuel with
        | .error e => .error e
        | .ok t => .ok { b with range := (some s, some t) }
      | none => .ok { b with range := (some s, none) }
  | none =>
    match b.range.2 with
    | some endIdx =>
      match remapDown im endIdx fuel with
      | .error e => .error e
      | .ok t => .ok { b with range := (none, some t) }
    | none => .ok b

/-- the loop over `all_branches` remapping every range. -/
def remapBranchRanges (im : Nat → Option (Option Nat)) (fuel : Nat) :
    List BranchInfo → Except String (List BranchInfo)
  | [] => .ok []
  | b :: rest =>
    match remapBranchRange im fuel b with
    | .error e => .error e
    | .ok b2 =>
      match remapBranchRanges im fuel rest with
      | .error e => .error e
      | .ok bs => .ok (b2 :: bs)

/-- the iteration order of `indices.iter()` when the map is walked to
build `index_map`: a `HashMap` yields its oid/position pairs in an
unspecified order; this canonical order lists them by position. -/
def canonicalIterOrder (walked : List CommitData) : List (Oid × Nat) :=
  walked.enum.map (fun p => (p.2.oid, p.1))

/-- `GitGraph::new` from the point where the walked sequence is in hand:
index, assign children, assign branches, resolve source/target groups,
allocate columns, then filter the commits to the owned ones and re-express
positions and range bounds against the filtered sequence.  `iterOrder` is
the unspecified enumeration order of the `indices` hash map used to build
`index_map` (any permutation of `canonicalIterOrder`). -/
def gitGraphNew (inp : GraphInput) (iterOrder : List (Oid × Nat)) : Except String GGraph :=
  let indices := indicesOf inp.walked
  let commits0 := inp.walked.map CommitInfo.ofData
  let commits1 := assignChildren indices commits0
  match assignBranches inp.repo commits1 indices inp.settings with
  | .error e => .error e
  | .ok (commits2, allBranches0) =>
    let allBranches1 := assignSourcesTargets commits2 indices allBranches0
    let allBranches2 :=
      match inp.settings.branchOrder with
      | .shortestFirst forward =>
        assignBranchColumns commits2 indices allBranches1 inp.settings.branches true forward
      | .longestFirst forward =>
        assignBranchColumns commits2 indices allBranches1 inp.settings.branches false forward
    let filteredCommits := commits2.filter (fun info => info.branchTrace.isSome)
    let filteredIndices := fun oid => filteredCommits.findIdx? (fun c => c.oid == oid)
    let im := buildIndexMap iterOrder filteredIndices
    match remapBranchRanges im (inp.walked.length + 1) allBranches2 with
    | .error e => .error e
    | .ok allBranches3 =>
      .ok { commits := filteredCommits
            allBranches := allBranches3
            branches := allBranches3.enum.filterMap
              (fun p => if !p.2.isTag then some p.1 else none)
            tags := allBranches3.enum.filterMap
              (fun p => if p.2.isTag then some p.1 else none) }

/-! Concrete inputs exercising the tracing engine.  The first input has a
merge commit M (position 0, parents A at position 2 and B at position 1),
a branch `master` at M, a branch `feature/x` at B, and a root R at
position 3; the merge summary of M names `feature/x`, so the catalog
holds a real and a merge-derived candidate of the same name. -/

def pMaster : Pattern := fun s => s == "master"

def pFx : Pattern := fun s => s == "feature/x"

def mpFx : MergePattern := fun s =>
  if s == "Merge branch 'feature/x'" then some "feature/x" else none

def exSettings : SettingsModel :=
  { includeRemote := false
    branches :=
      { persistence := [pMaster, pFx]
        order := []
        terminalColors := []
        terminalColorsUnknown := ["c"]
        svgColors := []
        svgColorsUnknown := ["svg"] }
    mergePatterns := [mpFx]
    branchOrder := .shortestFirst true
    termColorOf := fun _ => .ok 1 }

def exWalked1 : List CommitData :=
  [ ⟨10, [11, 12], some "Merge branch 'feature/x'"⟩
  , ⟨12, [13], some "B"⟩
  , ⟨11, [13], some "A"⟩
  , ⟨13, [], some "R"⟩ ]

def exRepo1 : Repo :=
  { objects := exWalked1
    branchRefs := [ ⟨some "refs/heads/master", some 10, false⟩
                  , ⟨some "refs/heads/feature/x", some 12, false⟩ ]
    tagRefs := [] }

def exInp1 : GraphInput := ⟨exWalked1, exRepo1, exSettings⟩

def exCommits1 : List CommitInfo :=
  assignChildren (indicesOf exWalked1) (exWalked1.map CommitInfo.ofData)

def exBranches1 : List BranchInfo :=
  (extractBranches exRepo1 exCommits1 (indicesOf exWalked1) exSettings).toOption.getD []

def exSt1 : CoreState :=
  coreStep exRepo1 (indicesOf exWalked1) ⟨exCommits1, exBranches1, 0, []⟩ 0

def exSt2 : CoreState := coreStep exRepo1 (indicesOf exWalked1) exSt1 1

def exSt3 : CoreState := coreStep exRepo1 (indicesOf exWalked1) exSt2 2

def exCore1 : List CommitInfo × List BranchInfo :=
  assignBranchesCore exRepo1 (indicesOf exWalked1) exCommits1 exBranches1

/-! The second input lets the merge-derived candidate own two commits
(positions 1 and 3) before the real branch of the same name walks over
both of them. -/

def exWalked2 : List CommitData :=
  [ ⟨10, [11, 12], some "Merge branch 'feature/x'"⟩
  , ⟨12, [14], some "B1"⟩
  , ⟨11, [13], some "A"⟩
  , ⟨14, [13], some "B2"⟩
  , ⟨13, [], some "R"⟩ ]

def exRepo2 : Repo :=
  { objects := exWalked2
    branchRefs := [ ⟨some "refs/heads/master", some 10, false⟩
                  , ⟨some "refs/heads/feature/x", some 12, false⟩ ]
    tagRefs := [] }

def exCommits2 : List CommitInfo :=
  assignChildren (indicesOf exWalked2) (exWalked2.map CommitInfo.ofData)

def exBranches2 : List BranchInfo :=
  (extractBranches exRepo2 exCommits2 (indicesOf exWalked2) exSettings).toOption.getD []

def exU1 : CoreState :=
  coreStep exRepo2 (indicesOf exWalked2) ⟨exCommits2, exBranches2, 0, []⟩ 0

def exU2 : CoreState := coreStep exRepo2 (indicesOf exWalked2) exU1 1

def exU3 : CoreState := coreStep exRepo2 (indicesOf exWalked2) exU2 2

/-! The third input makes an object lookup fail in the middle of a
branch-tracing walk: position 1 is walked (it is indexed) but its object
is absent from the store, so `find_commit` fails after the walk has
already claimed positions 0 and 1. -/

def exWalked3 : List CommitData := [⟨1, [2], some "c0"⟩, ⟨2, [], some "c1"⟩]

def exRepo3 : Repo :=
  { objects := [⟨1, [2], some "c0"⟩]
    branchRefs := [⟨some "refs/heads/master", some 1, false⟩]
    tagRefs := [] }

def exCommits3 : List CommitInfo :=
  assignChildren (indicesOf exWalked3) (exWalked3.map CommitInfo.ofData)

def exBranches3 : List BranchInfo :=
  [BranchInfo.make 1 none "master" 0 false false false (BranchVis.make 0 1 "svg") (some 0)]

def exCore3 : List CommitInfo × List BranchInfo :=
  assignBranchesCore exRepo3 (indicesOf exWalked3) exCommits3 exBranches3

/-! The fourth input carries a tag whose raw name bytes are not valid
UTF-8. -/

def exRepo4 : Repo :=
  { objects := [⟨1, [], some "c0"⟩]
    branchRefs := [⟨some "refs/heads/master", some 1, false⟩]
    tagRefs := [⟨7, .error "invalid utf-8 sequence of 1 bytes from index 0", none⟩] }

def exInp4 : GraphInput := ⟨[⟨1, [], some "c0"⟩], exRepo4, exSettings⟩

/-- interval `iv` is recorded in some column of some position group of
the `occupied` structure of `assign_branch_columns`. -/
def occIn (occ : List (List (List (Nat × Nat)))) (iv : Nat × Nat) : Prop :=
  ∃ g c, iv ∈ ((occ.getD g []).getD c [])

/-- a candidate whose range was invalidated to `(None, None)`, used to
exercise the column allocator. -/
def exColBranch : BranchInfo :=
  BranchInfo.make 1 none "b" 0 false false false (BranchVis.make 0 1 "c") none

/-- the type of the `occupied` structure. -/
abbrev Occ := List (List (List (Nat × Nat)))

/-- two candidates with disjoint ranges in one position group, used to
exercise column sharing. -/
def exColB1 : BranchInfo :=
  { target := 1, mergeTarget := none, name := "b1", persistence := 0, isRemote := false,
    isMerged := false, isTag := false, visual := BranchVis.make 0 1 "c",
    range := (some 0, some 1) }

def exColB2 : BranchInfo :=
  { target := 2, mergeTarget := none, name := "b2", persistence := 0, isRemote := false,
    isMerged := false, isTag := false, visual := BranchVis.make 0 1 "c",
    range := (some 2, some 3) }

/-- the effective interval `[start, end]` the allocator uses for branch
`k`: absent bounds default to 0 and to `de`. -/
def effIv (branches : List BranchInfo) (de : Nat) (k : Nat) : Nat × Nat :=
  ((branches.getD k default).range.1.getD 0, (branches.getD k default).range.2.getD de)

/-- the allocator's overlap test `start <= *e && end >= *s` between two
intervals. -/
def ivOverlap (a b : Nat × Nat) : Prop := a.1 ≤ b.2 ∧ b.1 ≤ a.2

/-- the position group a placement works in (`branch_group`). -/
def pbBG (acc : List BranchInfo × Occ) (e : ColEntry) : Nat :=
  (acc.1.getD e.branchIdx default).visual.orderGroup

/-- the columns of that group (`group_occ`) before the placement. -/
def pbGO (acc : List BranchInfo × Occ) (e : ColEntry) : List (List (Nat × Nat)) :=
  acc.2.getD (pbBG acc e) []

/-- the forbidden merge-target column of a placement. -/
def pbCC (cs : List CommitInfo) (indices : Oid → Option Nat)
    (acc : List BranchInfo × Occ) (e : ColEntry) : Option Nat :=
  match (acc.1.getD e.branchIdx default).mergeTarget with
  | some targetOid =>
    match (indices targetOid).bind (fun ti => (cs.getD ti default).branchTrace) with
    | some tb =>
      let mergeBranch := acc.1.getD tb default
      if mergeBranch.visual.orderGroup == pbBG acc e then mergeBranch.visual.column
      else none
    | none => none
  | none => none

/-- the column a placement selects (`selected_column`). -/
def pbSel (cs : List CommitInfo) (indices : Oid → Option Nat)
    (acc : List BranchInfo × Occ) (e : ColEntry) : Nat :=
  (findColumnFrom e.start e.endPos (pbCC cs indices acc e) (pbGO acc e) 0).getD
    (pbGO acc e).length

/-- the group's columns after a possible fresh column was opened. -/
def pbGO2 (cs : List CommitInfo) (indices : Oid → Option Nat)
    (acc : List BranchInfo × Occ) (e : ColEntry) : List (List (Nat × Nat)) :=
  if pbSel cs indices acc e == (pbGO acc e).length then pbGO acc e ++ [[]] else pbGO acc e

/-- the invariant the placement fold maintains: lengths are stable, only
columns mutate, an assigned column records the branch's interval inside
its group, and two same-group same-column branches never overlap. -/
structure ColInv (branches : List BranchInfo) (nOrder : Nat) (de : Nat)
    (acc : List BranchInfo × Occ) : Prop where
  len1 : acc.1.length = branches.length
  len2 : acc.2.length = nOrder + 1
  pres : ∀ k, (acc.1.getD k default).range = (branches.getD k default).range ∧
    (acc.1.getD k default).visual.orderGroup = (branches.getD k default).visual.orderGroup ∧
    (acc.1.getD k default).mergeTarget = (branches.getD k default).mergeTarget
  colinv : ∀ k c, k < branches.length →
    (acc.1.getD k default).visual.column = some c →
    effIv branches de k ∈
      ((acc.2.getD ((branches.getD k default).visual.orderGroup) []).getD c []) ∧
    c < (acc.2.getD ((branches.getD k default).visual.orderGroup) []).length
  pairs : ∀ k1 k2 c, k1 < branches.length → k2 < branches.length → k1 ≠ k2 →
    (acc.1.getD k1 default).visual.column = some c →
    (acc.1.getD k2 default).visual.column = some c →
    (branches.getD k1 default).visual.orderGroup =
      (branches.getD k2 default).visual.orderGroup →
    ¬ivOverlap (effIv branches de k1) (effIv branches de k2)

/-- range validity: when both bounds are present, the first (the `end`
position of the tip, the smaller index) is at most the second. -/
def RangeOK : Option Nat × Option Nat → Prop
  | (some a, some b) => a ≤ b
  | _ => True

instance instDecRangeOK : (r : Option Nat × Option Nat) → Decidable (RangeOK r)
  | (some _, some _) => Nat.decLe _ _
  | (some _, none) => .isTrue trivial
  | (none, _) => .isTrue trivial

/-- a small surviving-position map for exercising the range remap:
positions 0, 2 and 3 survive (as filtered positions 0, 1 and 2),
position 1 is mapped but dead, and everything else is unmapped — so a
range starting at 1 engages the advancing loop. -/
def exRemapIm : Nat → Option (Option Nat)
  | 0 => some (some 0)
  | 1 => some none
  | 2 => some (some 1)
  | 3 => some (some 2)
  | _ => none

def exRemapBranch : BranchInfo :=
  { BranchInfo.make 0 none "b" 0 false false false (BranchVis.make 0 0 "c")
      (some 1) with range := (some 1, some 3) }

def exRemapOut : BranchInfo :=
  { exRemapBranch with range := (some 1, some 2) }

/-! Basic lemmas about the mutation helper. -/

theorem updateAt_length {α : Type} (l : List α) (i : Nat) (f : α → α) :
    (updateAt l i f).length = l.length := by
  unfold updateAt; cases h : l[i]? <;> simp

theorem updateAt_of_le {α : Type} (l : List α) (i : Nat) (f : α → α)
    (h : l.length ≤ i) : updateAt l i f = l := by
  unfold updateAt; rw [List.getElem?_eq_none h]

theorem updateAt_getD_ne {α : Type} (l : List α) (i : Nat) (f : α → α)
    (j : Nat) (d : α) (h : j ≠ i) : (updateAt l i f).getD j d = l.getD j d := by
  unfold updateAt
  cases hx : l[i]? with
  | none => rfl
  | some x =>
    simp only [List.getD_eq_getElem?_getD, List.getElem?_set_ne (Ne.symm h)]

theorem updateAt_getD_self {α : Type} (l : List α) (i : Nat) (f : α → α) (d : α)
    (h : i < l.length) : (updateAt l i f).getD i d = f (l.getD i d) := by
  unfold updateAt
  rw [List.getElem?_eq_getElem h]
  simp [List.getD_eq_getElem?_getD, List.getElem?_set, h, List.getElem?_eq_getElem]

theorem updateAt_getD_map {α β : Type} (g : α → β) (l : List α) (i : Nat)
    (f : α → α) (hf : ∀ x, g (f x) = g x) (j : Nat) (d : α) :
    g ((updateAt l i f).getD j d) = g (l.getD j d) := by
  rcases eq_or_ne j i with rfl | h
  · by_cases hi : j < l.length
    · rw [updateAt_getD_self _ _ _ _ hi, hf]
    · rw [updateAt_of_le _ _ _ (le_of_not_lt hi)]
  · rw [updateAt_getD_ne _ _ _ _ _ h]

theorem getD_map_of_lt {α β : Type} (f : α → β) (l : List α) (i : Nat) (d : β) (d2 : α)
    (h : i < l.length) : (l.map f).getD i d = f (l.getD i d2) := by
  rw [List.getD_eq_getElem?_getD, List.getD_eq_getElem?_getD, List.getElem?_map,
    List.getElem?_eq_getElem h]
  rfl

theorem getD_of_le {α : Type} (l : List α) (i : Nat) (d : α) (h : l.length ≤ i) :
    l.getD i d = d := by
  rw [List.getD_eq_getElem?_getD, List.getElem?_eq_none h]
  rfl

/-- C1.  The claim states that a commit's owner, once set by
`trace_branch`, is never replaced by a later `trace_branch` invocation.
On the concrete input above, tracing in catalog order (`master`, then
merge-derived `feature/x`, then real `feature/x`), the second candidate's
trace makes it the owner of the commit at position 1, and the third
candidate's trace — reaching that commit with an equal name and a
compatible range-start hint — falls through the same-name case without
`break`, claims the commit for itself, and so replaces owner 1 by
owner 2. -/
theorem C1_counterexample :
    (exSt2.commits.getD 1 default).branchTrace = some 1 ∧
    (exSt3.commits.getD 1 default).branchTrace = some 2 := by
  exact ⟨by decide, by decide⟩

/-- C2.  The claim states that when a walk reaches a commit owned by a
same-named branch with a compatible range-start hint, `trace_branch`
only adjusts the previous owner's range and terminates without assigning
ownership of that commit or of any earlier commit to the walking
candidate.  On the second concrete input, the real `feature/x` walk
reaches position 1 (owned by the same-named merge-derived candidate 1,
whose recorded start 1 is ≥ the walker's hint 1), yet afterwards both
position 1 and the even earlier position 3 are owned by the walking
candidate 2: the walk did not terminate and did claim those commits. -/
theorem C2_counterexample :
    (exU2.commits.getD 1 default).branchTrace = some 1 ∧
    (exU2.commits.getD 3 default).branchTrace = some 1 ∧
    (exU3.commits.getD 1 default).branchTrace = some 2 ∧
    (exU3.commits.getD 3 default).branchTrace = some 2 := by
  exact ⟨by decide, by decide, by decide, by decide⟩

/-- C3.  The claim states that any object-lookup failure during a
branch-tracing walk aborts graph construction with an error.  On the
third input the one candidate's walk fails (`find_commit` errors at the
second visited commit), yet the tracing stage returns a complete result:
`assign_branches` discards the walk's error with `unwrap_or(false)`, the
candidate is kept (it is a real branch), both commits keep the ownership
assigned before the failure, and nothing aborts.  (A failing walk lookup
cannot be exhibited through `gitGraphNew` on a static object store,
because `extract_branches` resolves every walked object first; the
swallowing happens in the tracing stage the claim cites.) -/
theorem C3_counterexample :
    (traceBranch exRepo3 (indicesOf exWalked3)
        (updateAt exCommits3 0 (fun info => { info with branches := info.branches ++ [0] }))
        exBranches3 1 0).result = .error "could not find commit" ∧
    (exCore3.2.map (fun b => b.name) = ["master"]) ∧
    (exCore3.1.getD 0 default).branchTrace = some 0 ∧
    (exCore3.1.getD 1 default).branchTrace = some 0 := by
  exact ⟨rfl, rfl, by decide, by decide⟩

/-- C4.  The claim states that after cataloging, among candidates of
equal persistence rank every real branch precedes every merge-derived
branch.  On the first concrete input the sorted catalog is
`[master, feature/x (merge-derived), feature/x (real)]`: the
merge-derived candidate and the real candidate share persistence rank 1,
and the merge-derived one comes first — the sort key is
`(persistence, !is_merged)` and `false < true` puts merged candidates
before real ones. -/
theorem C4_counterexample :
    (exBranches1.getD 1 default).persistence = (exBranches1.getD 2 default).persistence ∧
    (exBranches1.getD 1 default).isMerged = true ∧
    (exBranches1.getD 2 default).isMerged = false := by
  exact ⟨by decide, by decide, by decide⟩

/-- C8.  The claim states that a tag whose name is not valid text is
skipped and construction still returns a complete result.  On the fourth
input construction aborts instead: `extract_branches` propagates the
UTF-8 decoding error with `?`, and `GitGraph::new` returns it. -/
theorem C8_counterexample :
    gitGraphNew exInp4 (canonicalIterOrder exInp4.walked) =
      .error "invalid utf-8 sequence of 1 bytes from index 0" := rfl

/-- C3 amended: the tracing stage never turns a walk failure into an
abort — `assign_branches` succeeds whenever `extract_branches` does,
because `trace_branch` errors are discarded by `unwrap_or(false)` and
everything after the catalog is total. -/
theorem C3_theorem (repo : Repo) (cs : List CommitInfo) (indices : Oid → Option Nat)
    (settings : SettingsModel) (bs : List BranchInfo)
    (h : extractBranches repo cs indices settings = .ok bs) :
    assignBranches repo cs indices settings =
      .ok (assignBranchesCore repo indices cs bs) := by
  unfold assignBranches
  rw [h]

/-- C3 witness: the theorem applied to the first concrete input. -/
theorem C3_witness :
    assignBranches exRepo1 exCommits1 (indicesOf exWalked1) exSettings =
      .ok (assignBranchesCore exRepo1 (indicesOf exWalked1) exCommits1 exBranches1) :=
  C3_theorem exRepo1 exCommits1 (indicesOf exWalked1) exSettings exBranches1 rfl

/-- a successful tag phase implies every raw tag name decoded. -/
theorem extractTags_ok_names (settings : SettingsModel) (indices : Oid → Option Nat) :
    ∀ (l : List RawTag) (counter : Nat) (out : List BranchInfo),
      extractTags settings indices l counter = .ok out →
      ∀ t ∈ l, ∃ s, t.utf8Name = .ok s := by
  intro l
  induction l with
  | nil => intro counter out h t ht; cases ht
  | cons a rest ih =>
    intro counter out h t ht
    rcases List.mem_cons.mp ht with rfl | hmem
    · cases ha : t.utf8Name with
      | error e => unfold extractTags at h; rw [ha] at h; cases h
      | ok nm => exact ⟨nm, rfl⟩
    · unfold extractTags at h
      split at h
      · cases h
      · split at h
        · split at h
          · dsimp only at h
            split at h
            · cases h
            · split at h
              · cases h
              · next heq => exact ih _ _ heq _ hmem
          · exact ih _ _ h _ hmem
        · exact ih _ _ h _ hmem

/-- a successful catalog implies a successful tag phase. -/
theorem extractBranches_ok_tags {repo : Repo} {cs : List CommitInfo}
    {indices : Oid → Option Nat} {settings : SettingsModel} {bs : List BranchInfo}
    (h : extractBranches repo cs indices settings = .ok bs) :
    ∃ counter out, extractTags settings indices repo.tagRefs counter = .ok out := by
  unfold extractBranches at h
  dsimp only at h
  repeat' split at h
  all_goals first
    | exact ⟨_, _, by assumption⟩
    | cases h

/-- a successful construction implies a successful `assign_branches`. -/
theorem gitGraphNew_ok_assign {inp : GraphInput} {ord : List (Oid × Nat)} {g : GGraph}
    (h : gitGraphNew inp ord = .ok g) :
    ∃ r, assignBranches inp.repo (assignChildren (indicesOf inp.walked)
      (inp.walked.map CommitInfo.ofData)) (indicesOf inp.walked) inp.settings = .ok r := by
  unfold gitGraphNew at h
  dsimp only at h
  split at h
  · cases h
  · exact ⟨_, by assumption⟩

/-- a successful `assign_branches` implies a successful catalog. -/
theorem assignBranches_ok_extract {repo : Repo} {cs : List CommitInfo}
    {indices : Oid → Option Nat} {settings : SettingsModel}
    {r : List CommitInfo × List BranchInfo}
    (h : assignBranches repo cs indices settings = .ok r) :
    ∃ bs, extractBranches repo cs indices settings = .ok bs := by
  unfold assignBranches at h
  split at h
  · cases h
  · next heq => exact ⟨_, heq⟩

/-- C8 amended: an input containing a tag whose raw name is not valid
UTF-8 never yields a completed graph — the decode error aborts
construction. -/
theorem C8_theorem (inp : GraphInput) (ord : List (Oid × Nat)) (t : RawTag) (e : String)
    (ht : t ∈ inp.repo.tagRefs) (he : t.utf8Name = .error e) (g : GGraph) :
    gitGraphNew inp ord ≠ .ok g := by
  intro h
  obtain ⟨r, hr⟩ := gitGraphNew_ok_assign h
  obtain ⟨bs, hbs⟩ := assignBranches_ok_extract hr
  obtain ⟨counter, out, hout⟩ := extractBranches_ok_tags hbs
  obtain ⟨s, hs⟩ := extractTags_ok_names _ _ _ _ _ hout t ht
  rw [he] at hs
  cases hs

/-- C8 witness: the theorem applied to the fourth concrete input. -/
theorem C8_witness :
    gitGraphNew exInp4 (canonicalIterOrder exInp4.walked) ≠
      .ok (default : GGraph) :=
  C8_theorem exInp4 (canonicalIterOrder exInp4.walked)
    ⟨7, .error "invalid utf-8 sequence of 1 bytes from index 0", none⟩
    "invalid utf-8 sequence of 1 bytes from index 0"
    (List.Mem.head _) rfl default

/-- unfolding of `hashLookup` over a newly inserted pair: the rest of
the list wins, the new pair only answers keys nobody later covers. -/
theorem hashLookup_cons {β : Type} (x : Nat × β) (l : List (Nat × β)) (k : Nat) :
    hashLookup (x :: l) k =
      match hashLookup l k with
      | some v => some v
      | none => if x.1 = k then some x.2 else none := by
  unfold hashLookup
  rw [List.reverse_cons, List.find?_append]
  cases hf : (l.reverse.find? (fun p => p.1 == k)) with
  | some v => rfl
  | none =>
    simp only [Option.orElse_none, Option.none_orElse, List.find?_singleton]
    by_cases h : x.1 = k <;> simp [h]

/-- with pairwise distinct keys, the `HashMap` contents do not depend on
the insertion order. -/
theorem hashLookup_perm {β : Type} {l₁ l₂ : List (Nat × β)} (h : l₁.Perm l₂)
    (nd : (l₁.map Prod.fst).Nodup) (k : Nat) : hashLookup l₁ k = hashLookup l₂ k := by
  induction h with
  | nil => rfl
  | cons x h ih =>
    rw [hashLookup_cons, hashLookup_cons]
    rw [List.map_cons, List.nodup_cons] at nd
    rw [ih nd.2]
  | swap x y l =>
    rw [hashLookup_cons, hashLookup_cons, hashLookup_cons, hashLookup_cons]
    rw [List.map_cons, List.map_cons, List.nodup_cons, List.nodup_cons] at nd
    have hxy : y.1 ≠ x.1 := by
      intro hEq
      exact nd.1 (by rw [hEq]; exact List.mem_cons_self _ _)
    cases hL : hashLookup l k with
    | some v => rfl
    | none =>
      by_cases hx : x.1 = k
      · by_cases hy : y.1 = k
        · exact absurd (hy.trans hx.symm) hxy
        · simp [hx, hy]
      · by_cases hy : y.1 = k <;> simp [hx, hy]
  | trans h₁ h₂ ih₁ ih₂ =>
    have nd₂ := ((h₁.map Prod.fst).nodup_iff).mp nd
    rw [ih₁ nd, ih₂ nd₂]

/-- insertion-order independence of the consolidation index map. -/
theorem buildIndexMap_perm {ord₁ ord₂ : List (Oid × Nat)} (hperm : ord₁.Perm ord₂)
    (ndk : (ord₁.map (fun p => p.2)).Nodup) (fi : Oid → Option Nat) :
    buildIndexMap ord₁ fi = buildIndexMap ord₂ fi := by
  funext k
  refine hashLookup_perm (hperm.map _) ?_ k
  have : (ord₁.map (fun p => (p.2, fi p.1))).map Prod.fst = ord₁.map (fun p => p.2) := by
    rw [List.map_map]; rfl
  rw [this]
  exact ndk

/-- C9.  Construction is deterministic: it is a pure function of the
walked sequence, the repository data and the settings, and its one
unordered-container iteration — the enumeration of `indices` used to
build `index_map` — cannot influence the result: any two enumeration
orders of that map yield identical commit ownership, branch ranges and
branch columns. -/
theorem C9_theorem (inp : GraphInput) (ord₁ ord₂ : List (Oid × Nat))
    (h₁ : ord₁.Perm (canonicalIterOrder inp.walked))
    (h₂ : ord₂.Perm (canonicalIterOrder inp.walked)) :
    gitGraphNew inp ord₁ = gitGraphNew inp ord₂ := by
  have hperm : ord₁.Perm ord₂ := h₁.trans h₂.symm
  have ndk : (ord₁.map (fun p => p.2)).Nodup := by
    have hc : (canonicalIterOrder inp.walked).map (fun p => p.2) =
        List.range inp.walked.length := by
      unfold canonicalIterOrder
      rw [List.map_map]
      exact List.enum_map_fst _
    have hp := h₁.map (fun p => p.2)
    rw [hc] at hp
    exact hp.nodup_iff.mpr (List.nodup_range _)
  unfold gitGraphNew
  dsimp only
  cases hA : assignBranches inp.repo (assignChildren (indicesOf inp.walked)
      (inp.walked.map CommitInfo.ofData)) (indicesOf inp.walked) inp.settings with
  | error e => rfl
  | ok pr =>
    obtain ⟨c2, ab0⟩ := pr
    dsimp only
    rw [buildIndexMap_perm hperm ndk]

/-- C9 witness: the theorem applied to the first concrete input, with the
canonical enumeration order against its reversal. -/
theorem C9_witness :
    gitGraphNew exInp1 (canonicalIterOrder exWalked1) =
      gitGraphNew exInp1 ((canonicalIterOrder exWalked1).reverse) :=
  C9_theorem exInp1 (canonicalIterOrder exWalked1) ((canonicalIterOrder exWalked1).reverse)
    (by decide) (by decide)

/-! Lemmas about the occupied-columns structure. -/

theorem getD_replicate2 {α : Type} (n : Nat) (a : α) (i : Nat) (d : α) :
    (List.replicate n a).getD i d = if i < n then a else d := by
  rw [List.getD_eq_getElem?_getD, List.getElem?_replicate]
  split <;> rfl

theorem getD_append_single {α : Type} (go : List α) (y : α) (c : Nat) (d : α) :
    (go ++ [y]).getD c d =
      if c < go.length then go.getD c d else if c = go.length then y else d := by
  by_cases h : c < go.length
  · rw [if_pos h, List.getD_eq_getElem?_getD, List.getD_eq_getElem?_getD,
      List.getElem?_append, if_pos h]
  · rw [if_neg h]
    by_cases h2 : c = go.length
    · subst h2
      rw [if_pos rfl, List.getD_eq_getElem?_getD, List.getElem?_append_right (le_refl _)]
      simp
    · rw [if_neg h2, getD_of_le]
      simp only [List.length_append, List.length_singleton]
      omega

/-- growing the group by a fresh empty column adds no interval. -/
theorem growGroup_mem {go : List (List (Nat × Nat))} {sel c : Nat} {iv : Nat × Nat}
    (h : iv ∈ ((if sel == go.length then go ++ [[]] else go).getD c [])) :
    iv ∈ go.getD c [] := by
  by_cases hs : sel == go.length
  · rw [if_pos hs, getD_append_single] at h
    by_cases h1 : c < go.length
    · rwa [if_pos h1] at h
    · rw [if_neg h1] at h
      by_cases h2 : c = go.length
      · rw [if_pos h2] at h; cases h
      · rw [if_neg h2] at h; cases h
  · rwa [if_neg hs] at h

/-- pushing one interval into a column: anything recorded afterwards was
recorded before or is the pushed interval. -/
theorem colUpdate_mem {go : List (List (Nat × Nat))} {sel c : Nat} {p iv : Nat × Nat}
    (h : iv ∈ ((updateAt (if sel == go.length then go ++ [[]] else go) sel
      (fun col => col ++ [p])).getD c [])) :
    (∃ c2, iv ∈ go.getD c2 []) ∨ iv = p := by
  by_cases hc : c = sel
  · rw [hc] at h
    by_cases hlt : sel < (if sel == go.length then go ++ [[]] else go).length
    · rw [updateAt_getD_self _ _ _ _ hlt] at h
      rcases List.mem_append.mp h with h1 | h1
      · exact Or.inl ⟨sel, growGroup_mem h1⟩
      · exact Or.inr (List.mem_singleton.mp h1)
    · rw [updateAt_of_le _ _ _ (le_of_not_lt hlt)] at h
      exact Or.inl ⟨sel, growGroup_mem h⟩
  · rw [updateAt_getD_ne _ _ _ _ _ hc] at h
    exact Or.inl ⟨c, growGroup_mem h⟩

/-- the occupied structure after one placement, as an explicit update. -/
theorem placeBranch_snd (cs : List CommitInfo) (indices : Oid → Option Nat)
    (acc : List BranchInfo × List (List (List (Nat × Nat)))) (e : ColEntry) :
    ∃ bg sel, (placeBranch cs indices acc e).2 =
      updateAt acc.2 bg (fun _ =>
        updateAt (if sel == (acc.2.getD bg []).length then (acc.2.getD bg []) ++ [[]]
          else (acc.2.getD bg [])) sel (fun col => col ++ [(e.start, e.endPos)])) :=
  ⟨_, _, rfl⟩

/-- the branch array after one placement, as an explicit update. -/
theorem placeBranch_fst (cs : List CommitInfo) (indices : Oid → Option Nat)
    (acc : List BranchInfo × List (List (List (Nat × Nat)))) (e : ColEntry) :
    ∃ sel, (placeBranch cs indices acc e).1 = updateAt acc.1 e.branchIdx
      (fun b => { b with visual := { b.visual with column := some sel } }) :=
  ⟨_, rfl⟩

/-- one placement only adds the placed entry's interval. -/
theorem placeBranch_occ (cs : List CommitInfo) (indices : Oid → Option Nat)
    (acc : List BranchInfo × List (List (List (Nat × Nat)))) (e : ColEntry)
    (iv : Nat × Nat) (h : occIn (placeBranch cs indices acc e).2 iv) :
    occIn acc.2 iv ∨ iv = (e.start, e.endPos) := by
  obtain ⟨bg, sel, heq⟩ := placeBranch_snd cs indices acc e
  rw [heq] at h
  obtain ⟨g, c, hm⟩ := h
  by_cases hg : g = bg
  · subst hg
    by_cases hlt : g < acc.2.length
    · rw [updateAt_getD_self _ _ _ _ hlt] at hm
      rcases colUpdate_mem hm with ⟨c2, h2⟩ | h2
      · exact Or.inl ⟨g, c2, h2⟩
      · exact Or.inr h2
    · rw [updateAt_of_le _ _ _ (le_of_not_lt hlt)] at hm
      exact Or.inl ⟨g, c, hm⟩
  · rw [updateAt_getD_ne _ _ _ _ _ hg] at hm
    exact Or.inl ⟨g, c, hm⟩

/-- membership facts about the rows of `branches_sort`. -/
theorem columnSortEntries_mem {branches : List BranchInfo} {lf sf : Int} {de : Nat}
    {entry : ColEntry} (h : entry ∈ columnSortEntries branches lf sf de) :
    entry.branchIdx < branches.length ∧
    ¬((branches.getD entry.branchIdx default).range = (none, none)) ∧
    entry.start = (branches.getD entry.branchIdx default).range.1.getD 0 ∧
    entry.endPos = (branches.getD entry.branchIdx default).range.2.getD de := by
  unfold columnSortEntries at h
  rw [List.mem_filterMap] at h
  obtain ⟨p, hp, hf⟩ := h
  rw [List.mem_enum_iff_getElem?] at hp
  have hlt : p.1 < branches.length := by
    rcases List.getElem?_eq_some.mp hp with ⟨hh, _⟩
    exact hh
  have hgd : branches.getD p.1 default = p.2 := by
    rw [List.getD_eq_getElem?_getD, hp]; rfl
  dsimp only at hf
  split at hf
  · cases hf
  · next hcond =>
    have he := Option.some_inj.mp hf
    have hb : entry.branchIdx = p.1 := by rw [← he]
    have hs : entry.start = p.2.range.1.getD 0 := by rw [← he]
    have hE : entry.endPos = p.2.range.2.getD de := by rw [← he]
    refine ⟨by rw [hb]; exact hlt, ?_, by rw [hb, hgd, hs], by rw [hb, hgd, hE]⟩
    rw [hb, hgd]
    intro hr
    exact hcond (by rw [hr]; exact ⟨rfl, rfl⟩)

/-- C10.  A branch whose range is `(None, None)` when column allocation
runs is excluded entirely: its column (starting out unset) is still
unset after allocation and group-offset application, and every interval
recorded in any column of any position group belongs to a branch whose
range is not `(None, None)` (so the excluded branch reserved nothing). -/
theorem C10_theorem (cs : List CommitInfo) (indices : Oid → Option Nat)
    (branches : List BranchInfo) (settings : BranchSettingsModel) (sf fw : Bool) (i : Nat)
    (hcol : (branches.getD i default).visual.column = none)
    (hr : (branches.getD i default).range = (none, none)) :
    ((assignBranchColumnsImpl cs indices branches settings sf fw).1.getD i
        default).visual.column = none ∧
    (∀ g c iv, iv ∈ (((assignBranchColumnsImpl cs indices branches settings sf fw).2.getD
        g []).getD c []) →
      ∃ j, j < branches.length ∧ ¬((branches.getD j default).range = (none, none)) ∧
        iv = ((branches.getD j default).range.1.getD 0,
              (branches.getD j default).range.2.getD (cs.length - 1))) := by
  have hmem : ∀ e ∈ List.insertionSort (fun a b => colEntryLe a b = true)
      (columnSortEntries branches (if sf then 1 else -1) (if fw then 1 else -1)
        (cs.length - 1)),
      e.branchIdx < branches.length ∧
      ¬((branches.getD e.branchIdx default).range = (none, none)) ∧
      e.start = (branches.getD e.branchIdx default).range.1.getD 0 ∧
      e.endPos = (branches.getD e.branchIdx default).range.2.getD (cs.length - 1) := by
    intro e he
    exact columnSortEntries_mem ((List.mem_insertionSort _).mp he)
  constructor
  · -- part A: the column stays unset
    have colStep : ∀ (es : List ColEntry), (∀ e ∈ es, e.branchIdx ≠ i) →
        ∀ acc : List BranchInfo × List (List (List (Nat × Nat))),
        (acc.1.getD i default).visual.column = none →
        ((es.foldl (placeBranch cs indices) acc).1.getD i default).visual.column = none := by
      intro es
      induction es with
      | nil => intro _ acc h; exact h
      | cons e rest ih =>
        intro hne acc hacc
        rw [List.foldl_cons]
        refine ih (fun x hx => hne x (List.mem_cons_of_mem _ hx)) _ ?_
        obtain ⟨sel, heq⟩ := placeBranch_fst cs indices acc e
        rw [heq, updateAt_getD_ne _ _ _ _ _ (Ne.symm (hne e (List.mem_cons_self _ _)))]
        exact hacc
    unfold assignBranchColumnsImpl
    dsimp only
    have hfold := colStep _
      (fun e he => by
        intro hEq
        exact (hmem e he).2.1 (by rw [← hEq] at hr; exact hr))
      (branches, List.replicate (settings.order.length + 1) [])
      hcol
    set placed := (List.insertionSort (fun a b => colEntryLe a b = true)
      (columnSortEntries branches (if sf then 1 else -1) (if fw then 1 else -1)
        (cs.length - 1))).foldl (placeBranch cs indices)
      (branches, List.replicate (settings.order.length + 1) []) with hplaced
    by_cases hi : i < placed.1.length
    · rw [getD_map_of_lt _ _ _ _ default hi, hfold]
      exact hfold
    · rw [getD_of_le _ _ _ (by simpa using le_of_not_lt hi)]
      rfl
  · -- part B: every recorded interval stems from a live branch
    intro g c iv hm
    have occStep : ∀ (Q : Nat × Nat → Prop) (es : List ColEntry),
        (∀ e ∈ es, Q (e.start, e.endPos)) →
        ∀ acc : List BranchInfo × List (List (List (Nat × Nat))),
        (∀ iv2, occIn acc.2 iv2 → Q iv2) →
        ∀ iv2, occIn ((es.foldl (placeBranch cs indices) acc).2) iv2 → Q iv2 := by
      intro Q es
      induction es with
      | nil => intro _ acc hacc iv2 h; exact hacc iv2 h
      | cons e rest ih =>
        intro hes acc hacc iv2 h
        rw [List.foldl_cons] at h
        refine ih (fun x hx => hes x (List.mem_cons_of_mem _ hx)) _ ?_ iv2 h
        intro iv3 hiv3
        rcases placeBranch_occ cs indices acc e iv3 hiv3 with h1 | h2
        · exact hacc iv3 h1
        · rw [h2]; exact hes e (List.mem_cons_self _ _)
    revert hm
    unfold assignBranchColumnsImpl
    dsimp only
    intro hm
    refine occStep
      (fun iv2 => ∃ j, j < branches.length ∧
        ¬((branches.getD j default).range = (none, none)) ∧
        iv2 = ((branches.getD j default).range.1.getD 0,
               (branches.getD j default).range.2.getD (cs.length - 1)))
      _ ?_ _ ?_ iv ⟨g, c, hm⟩
    · intro e he
      obtain ⟨h1, h2, h3, h4⟩ := hmem e he
      exact ⟨e.branchIdx, h1, h2, by rw [h3, h4]⟩
    · intro iv2 hiv2
      obtain ⟨g2, c2, hm2⟩ := hiv2
      rw [getD_replicate2] at hm2
      by_cases hg2 : g2 < settings.order.length + 1
      · rw [if_pos hg2] at hm2
        cases (show (([] : List (List (Nat × Nat))).getD c2 []) = [] from rfl) ▸ hm2
      · rw [if_neg hg2] at hm2
        cases (show (([] : List (List (Nat × Nat))).getD c2 []) = [] from rfl) ▸ hm2

/-- C10 witness: the theorem applied to a one-branch input whose range
is `(None, None)`. -/
theorem C10_witness :
    ((assignBranchColumnsImpl [] (fun _ => none) [exColBranch] exSettings.branches
        true true).1.getD 0 default).visual.column = none ∧
    (∀ g c iv, iv ∈ (((assignBranchColumnsImpl [] (fun _ => none) [exColBranch]
        exSettings.branches true true).2.getD g []).getD c []) →
      ∃ j, j < ([exColBranch] : List BranchInfo).length ∧
        ¬((([exColBranch] : List BranchInfo).getD j default).range = (none, none)) ∧
        iv = ((([exColBranch] : List BranchInfo).getD j default).range.1.getD 0,
              (([exColBranch] : List BranchInfo).getD j default).range.2.getD
                (([] : List CommitInfo).length - 1))) :=
  C10_theorem [] (fun _ => none) [exColBranch] exSettings.branches true true 0
    (by decide) (by decide)

/-- one placement, written through its named pieces. -/
theorem placeBranch_eq (cs : List CommitInfo) (indices : Oid → Option Nat)
    (acc : List BranchInfo × Occ) (e : ColEntry) :
    placeBranch cs indices acc e =
      (updateAt acc.1 e.branchIdx (fun b => { b with visual :=
          { b.visual with column := some (pbSel cs indices acc e) } }),
       updateAt acc.2 (pbBG acc e) (fun _ =>
         updateAt (pbGO2 cs indices acc e) (pbSel cs indices acc e)
           (fun col => col ++ [(e.start, e.endPos)]))) := rfl

/-- what a successful column scan guarantees about the found column. -/
theorem findColumnFrom_some {start e : Nat} {cc : Option Nat} :
    ∀ (l : List (List (Nat × Nat))) (i0 r : Nat),
      findColumnFrom start e cc l i0 = some r →
      i0 ≤ r ∧ r - i0 < l.length ∧
      intervalsConflict (l.getD (r - i0) []) start e = false ∧ cc ≠ some r := by
  intro l
  induction l with
  | nil => intro i0 r h; cases h
  | cons col rest ih =>
    intro i0 r h
    unfold findColumnFrom at h
    split at h
    · next hq =>
      injection h with h2
      subst h2
      refine ⟨le_refl _, by simp, ?_, hq.2⟩
      simp only [Nat.sub_self, List.getD_cons_zero]
      exact Bool.eq_false_iff.mpr (fun hx => hq.1 hx)
    · obtain ⟨h1, h2, h3, h4⟩ := ih (i0 + 1) r h
      refine ⟨by omega, by simp; omega, ?_, h4⟩
      have hEq : r - i0 = (r - (i0 + 1)) + 1 := by omega
      rw [hEq, List.getD_cons_succ]
      exact h3

/-- a conflict-free column has no interval overlapping the probe. -/
theorem intervalsConflict_false_mem {col : List (Nat × Nat)} {start e : Nat}
    (h : intervalsConflict col start e = false) :
    ∀ iv ∈ col, ¬ivOverlap (start, e) iv := by
  intro iv hm hc
  unfold intervalsConflict at h
  rw [List.any_eq_false] at h
  have := h iv hm
  rcases hc with ⟨hc1, hc2⟩
  simp only [Bool.and_eq_true, decide_eq_true_eq, not_and] at this
  exact absurd hc2 (by simpa using this hc1)

/-- the overlap test is symmetric. -/
theorem ivOverlap_symm {a b : Nat × Nat} (h : ivOverlap a b) : ivOverlap b a :=
  ⟨h.2, h.1⟩

/-- the selected column either scans clean or opens a fresh column. -/
theorem pbSel_dichotomy (cs : List CommitInfo) (indices : Oid → Option Nat)
    (acc : List BranchInfo × Occ) (e : ColEntry) :
    (pbSel cs indices acc e < (pbGO acc e).length ∧
      intervalsConflict ((pbGO acc e).getD (pbSel cs indices acc e) [])
        e.start e.endPos = false) ∨
    pbSel cs indices acc e = (pbGO acc e).length := by
  unfold pbSel
  cases hF : findColumnFrom e.start e.endPos (pbCC cs indices acc e) (pbGO acc e) 0 with
  | none => exact Or.inr rfl
  | some r =>
    obtain ⟨_, h2, h3, _⟩ := findColumnFrom_some _ _ _ hF
    simp only [Nat.sub_zero] at h2 h3
    exact Or.inl ⟨h2, h3⟩

/-- placement preserves the allocator invariant. -/
theorem placeBranch_inv (cs : List CommitInfo) (indices : Oid → Option Nat)
    (branches : List BranchInfo) (nOrder de : Nat)
    (hgroups : ∀ k, k < branches.length →
      (branches.getD k default).visual.orderGroup ≤ nOrder)
    (acc : List BranchInfo × Occ) (hInv : ColInv branches nOrder de acc) (e : ColEntry)
    (he1 : e.branchIdx < branches.length)
    (he3 : e.start = (branches.getD e.branchIdx default).range.1.getD 0)
    (he4 : e.endPos = (branches.getD e.branchIdx default).range.2.getD de) :
    ColInv branches nOrder de (placeBranch cs indices acc e) := by
  have hBGb : pbBG acc e = (branches.getD e.branchIdx default).visual.orderGroup :=
    (hInv.pres e.branchIdx).2.1
  have hBGlt : pbBG acc e < acc.2.length := by
    rw [hBGb, hInv.len2]
    exact Nat.lt_succ_of_le (hgroups _ he1)
  have hb1 : e.branchIdx < acc.1.length := by rw [hInv.len1]; exact he1
  have hive : effIv branches de e.branchIdx = (e.start, e.endPos) := by
    rw [he3, he4]; rfl
  -- the new branch array
  have hNBe : ((placeBranch cs indices acc e).1.getD e.branchIdx default).visual.column =
      some (pbSel cs indices acc e) := by
    rw [placeBranch_eq]
    dsimp only
    rw [updateAt_getD_self _ _ _ _ hb1]
  have hNBne : ∀ k, k ≠ e.branchIdx →
      (placeBranch cs indices acc e).1.getD k default = acc.1.getD k default := by
    intro k hk
    rw [placeBranch_eq]
    dsimp only
    rw [updateAt_getD_ne _ _ _ _ _ hk]
  -- the new occupied structure
  have hNOne : ∀ g, g ≠ pbBG acc e →
      (placeBranch cs indices acc e).2.getD g [] = acc.2.getD g [] := by
    intro g hg
    rw [placeBranch_eq]
    dsimp only
    rw [updateAt_getD_ne _ _ _ _ _ hg]
  have hNObg : (placeBranch cs indices acc e).2.getD (pbBG acc e) [] =
      updateAt (pbGO2 cs indices acc e) (pbSel cs indices acc e)
        (fun col => col ++ [(e.start, e.endPos)]) := by
    rw [placeBranch_eq]
    dsimp only
    rw [updateAt_getD_self _ _ _ _ hBGlt]
  have hSelLt2 : pbSel cs indices acc e < (pbGO2 cs indices acc e).length := by
    rcases pbSel_dichotomy cs indices acc e with ⟨h1, _⟩ | h1
    · unfold pbGO2
      rw [if_neg (by simp; omega)]
      exact h1
    · unfold pbGO2
      rw [if_pos (by simp [h1])]
      simp [h1]
  have hGO2len : (pbGO acc e).length ≤ (pbGO2 cs indices acc e).length := by
    unfold pbGO2
    split <;> simp
  have hGO2getD : ∀ c, c < (pbGO acc e).length →
      (pbGO2 cs indices acc e).getD c [] = (pbGO acc e).getD c [] := by
    intro c hc
    unfold pbGO2
    split
    · rw [getD_append_single, if_pos hc]
    · rfl
  refine ⟨?_, ?_, ?_, ?_, ?_⟩
  · rw [placeBranch_eq]; dsimp only; rw [updateAt_length]; exact hInv.len1
  · rw [placeBranch_eq]; dsimp only; rw [updateAt_length]; exact hInv.len2
  · intro k
    rw [placeBranch_eq]
    dsimp only
    refine ⟨?_, ?_, ?_⟩
    · have h1 := updateAt_getD_map (fun b : BranchInfo => b.range) acc.1 e.branchIdx
        (fun b => { b with visual := { b.visual with column := some (pbSel cs indices acc e) } })
        (fun x => rfl) k default
      exact h1.trans (hInv.pres k).1
    · have h1 := updateAt_getD_map (fun b : BranchInfo => b.visual.orderGroup) acc.1 e.branchIdx
        (fun b => { b with visual := { b.visual with column := some (pbSel cs indices acc e) } })
        (fun x => rfl) k default
      exact h1.trans (hInv.pres k).2.1
    · have h1 := updateAt_getD_map (fun b : BranchInfo => b.mergeTarget) acc.1 e.branchIdx
        (fun b => { b with visual := { b.visual with column := some (pbSel cs indices acc e) } })
        (fun x => rfl) k default
      exact h1.trans (hInv.pres k).2.2
  · -- colinv
    intro k c hk hcol
    by_cases hke : k = e.branchIdx
    · subst hke
      rw [hNBe] at hcol
      have hc : c = pbSel cs indices acc e := (Option.some_inj.mp hcol).symm
      subst hc
      rw [← hBGb, hNObg, updateAt_getD_self _ _ _ _ hSelLt2, updateAt_length]
      refine ⟨?_, hSelLt2⟩
      rw [hive]
      exact List.mem_append_right _ (List.mem_singleton.mpr rfl)
    · rw [hNBne k hke] at hcol
      obtain ⟨hmem, hlt⟩ := hInv.colinv k c hk hcol
      by_cases hgk : (branches.getD k default).visual.orderGroup = pbBG acc e
      · rw [hgk, hNObg, updateAt_length]
        rw [hgk] at hmem hlt
        have hltGO : c < (pbGO acc e).length := hlt
        constructor
        · by_cases hcs : c = pbSel cs indices acc e
          · subst hcs
            rw [updateAt_getD_self _ _ _ _ hSelLt2, hGO2getD _ hltGO]
            exact List.mem_append_left _ hmem
          · rw [updateAt_getD_ne _ _ _ _ _ hcs, hGO2getD _ hltGO]
            exact hmem
        · omega
      · rw [hNOne _ hgk]
        exact ⟨hmem, hlt⟩
  · -- pairs
    intro k1 k2 c hk1 hk2 hne hcol1 hcol2 hgeq
    by_cases h1e : k1 = e.branchIdx
    · subst h1e
      have h2e : k2 ≠ e.branchIdx := fun hx => hne hx.symm
      rw [hNBe] at hcol1
      have hc : c = pbSel cs indices acc e := (Option.some_inj.mp hcol1).symm
      subst hc
      rw [hNBne k2 h2e] at hcol2
      obtain ⟨hmem2, hlt2⟩ := hInv.colinv k2 _ hk2 hcol2
      rw [← hgeq, ← hBGb] at hmem2 hlt2
      have hpg : acc.2.getD (pbBG acc e) [] = pbGO acc e := rfl
      rw [hpg] at hmem2 hlt2
      rcases pbSel_dichotomy cs indices acc e with ⟨hslt, hconf⟩ | hseq
      · have := intervalsConflict_false_mem hconf _ hmem2
        rw [hive]
        exact this
      · omega
    · by_cases h2e : k2 = e.branchIdx
      · subst h2e
        rw [hNBe] at hcol2
        have hc : c = pbSel cs indices acc e := (Option.some_inj.mp hcol2).symm
        subst hc
        rw [hNBne k1 h1e] at hcol1
        obtain ⟨hmem1, hlt1⟩ := hInv.colinv k1 _ hk1 hcol1
        rw [hgeq, ← hBGb] at hmem1 hlt1
        have hpg : acc.2.getD (pbBG acc e) [] = pbGO acc e := rfl
        rw [hpg] at hmem1 hlt1
        rcases pbSel_dichotomy cs indices acc e with ⟨hslt, hconf⟩ | hseq
        · have := intervalsConflict_false_mem hconf _ hmem1
          intro hov
          rw [hive] at hov
          exact this (ivOverlap_symm hov)
        · omega
      · rw [hNBne k1 h1e] at hcol1
        rw [hNBne k2 h2e] at hcol2
        exact hInv.pairs k1 k2 c hk1 hk2 hne hcol1 hcol2 hgeq

/-- the placement fold keeps the allocator invariant. -/
theorem foldl_colInv (cs : List CommitInfo) (indices : Oid → Option Nat)
    (branches : List BranchInfo) (nOrder de : Nat)
    (hgroups : ∀ k, k < branches.length →
      (branches.getD k default).visual.orderGroup ≤ nOrder) :
    ∀ (es : List ColEntry),
      (∀ e ∈ es, e.branchIdx < branches.length ∧
        e.start = (branches.getD e.branchIdx default).range.1.getD 0 ∧
        e.endPos = (branches.getD e.branchIdx default).range.2.getD de) →
      ∀ acc, ColInv branches nOrder de acc →
        ColInv branches nOrder de (es.foldl (placeBranch cs indices) acc) := by
  intro es
  induction es with
  | nil => intro _ acc h; exact h
  | cons e rest ih =>
    intro hes acc hInv
    rw [List.foldl_cons]
    obtain ⟨h1, h3, h4⟩ := hes e (List.mem_cons_self _ _)
    exact ih (fun x hx => hes x (List.mem_cons_of_mem _ hx)) _
      (placeBranch_inv cs indices branches nOrder de hgroups acc hInv e h1 h3 h4)

/-- the scan values are offsets of prefix sums. -/
theorem cumulativeLengths_getD : ∀ (l : List Nat) (a t : Nat), t < l.length →
    (cumulativeLengths l a).getD t 0 = a + ((l.take (t + 1)).sum) := by
  intro l
  induction l with
  | nil => intro a t h; cases h
  | cons x rest ih =>
    intro a t h
    unfold cumulativeLengths
    cases t with
    | zero => simp
    | succ t2 =>
      rw [List.getD_cons_succ, ih (a + x) t2 (by simpa using h)]
      simp only [List.take_succ_cons, List.sum_cons]
      omega

/-- a branch's final (offset) column determines its group and its local
column, because the groups occupy disjoint offset bands. -/
theorem offset_inj (occ : Occ) (g1 g2 c1 c2 : Nat)
    (hg1 : g1 < occ.length) (hg2 : g2 < occ.length)
    (hc1 : c1 < (occ.getD g1 []).length) (hc2 : c2 < (occ.getD g2 []).length)
    (hoff : c1 + (if g1 == 0 then 0
        else (cumulativeLengths (occ.map List.length) 0).getD (g1 - 1) 0)
      = c2 + (if g2 == 0 then 0
        else (cumulativeLengths (occ.map List.length) 0).getD (g2 - 1) 0)) :
    g1 = g2 ∧ c1 = c2 := by
  set L := occ.map List.length with hL
  have hlenL : L.length = occ.length := by rw [hL, List.length_map]
  have hgetL : ∀ g, g < occ.length → L.getD g 0 = (occ.getD g []).length := by
    intro g hg
    rw [hL]
    exact getD_map_of_lt List.length occ g 0 [] hg
  have hoffS : ∀ g, g < occ.length →
      (if g == 0 then 0 else (cumulativeLengths L 0).getD (g - 1) 0)
        = ((L.take g).sum) := by
    intro g hg
    cases g with
    | zero => simp
    | succ g2 =>
      have : g2 < L.length := by omega
      rw [if_neg (by simp), Nat.succ_sub_one, cumulativeLengths_getD L 0 g2 this]
      omega
  have hmono : ∀ a b, a ≤ b → (L.take a).sum ≤ (L.take b).sum := by
    intro a b hab
    obtain ⟨t, ht⟩ := List.take_prefix_take_left L hab
    rw [← ht, List.sum_append]
    omega
  have hstep : ∀ g, g < occ.length →
      (L.take g).sum + (occ.getD g []).length = (L.take (g + 1)).sum := by
    intro g hg
    have hgL : g < L.length := by omega
    have hx : L.getD g 0 = L[g] := by
      rw [List.getD_eq_getElem?_getD, List.getElem?_eq_getElem hgL]
      rfl
    rw [List.sum_take_succ L g hgL, ← hx, hgetL g hg]
  rw [hoffS g1 hg1, hoffS g2 hg2] at hoff
  rcases Nat.lt_trichotomy g1 g2 with hlt | heq | hgt
  · exfalso
    have h1 : c1 + (L.take g1).sum < (L.take (g1 + 1)).sum := by
      rw [← hstep g1 hg1]; omega
    have h2 : (L.take (g1 + 1)).sum ≤ (L.take g2).sum := hmono _ _ hlt
    omega
  · refine ⟨heq, ?_⟩
    subst heq
    omega
  · exfalso
    have h1 : c2 + (L.take g2).sum < (L.take (g2 + 1)).sum := by
      rw [← hstep g2 hg2]; omega
    have h2 : (L.take (g2 + 1)).sum ≤ (L.take g1).sum := hmono _ _ hgt
    omega

/-- C5.  After column allocation, two distinct branches that end up with
the same final (offset) column index never have overlapping effective
ranges.  During allocation a branch is placed in an existing column of
its position group only if none of that column's occupied intervals
intersects the branch's `[start, end]` and that column is not the one
currently held, in the same group, by the branch owning this branch's
merge-target commit, the first qualifying column being chosen and a new
column opened otherwise (`findColumnFrom`, `pbSel`); the theorem derives
the claimed non-overlap guarantee from that qualification discipline,
for any input whose order groups fit the settings table and whose
columns start unassigned — as they do in the pipeline. -/
theorem C5_theorem (cs : List CommitInfo) (indices : Oid → Option Nat)
    (branches : List BranchInfo) (settings : BranchSettingsModel) (sf fw : Bool)
    (hgroups : ∀ k, k < branches.length →
      (branches.getD k default).visual.orderGroup ≤ settings.order.length)
    (hcols : ∀ k, k < branches.length → (branches.getD k default).visual.column = none)
    (i j ci : Nat) (hi : i < branches.length) (hj : j < branches.length) (hne : i ≠ j)
    (hci : ((assignBranchColumns cs indices branches settings sf fw).getD i
        default).visual.column = some ci)
    (hcj : ((assignBranchColumns cs indices branches settings sf fw).getD j
        default).visual.column = some ci) :
    ¬ivOverlap (effIv branches (cs.length - 1) i) (effIv branches (cs.length - 1) j) := by
  unfold assignBranchColumns assignBranchColumnsImpl at hci hcj
  dsimp only at hci hcj
  set de := cs.length - 1 with hde
  set entries := List.insertionSort (fun a b => colEntryLe a b = true)
    (columnSortEntries branches (if sf then 1 else -1) (if fw then 1 else -1) de)
    with hentries
  set acc0 : List BranchInfo × Occ :=
    (branches, List.replicate (settings.order.length + 1) []) with hacc0
  set placed := entries.foldl (placeBranch cs indices) acc0 with hplaced
  have hInv : ColInv branches settings.order.length de placed := by
    refine foldl_colInv cs indices branches _ de hgroups entries ?_ acc0 ?_
    · intro e he
      obtain ⟨h1, h2, h3, h4⟩ := columnSortEntries_mem ((List.mem_insertionSort _).mp he)
      exact ⟨h1, h3, h4⟩
    · refine ⟨rfl, by simp [hacc0], fun k => ⟨rfl, rfl, rfl⟩, ?_, ?_⟩
      · intro k c hk hcol
        have : (branches.getD k default).visual.column = some c := hcol
        rw [hcols k hk] at this
        cases this
      · intro k1 k2 c hk1 hk2 hne2 hcol1 hcol2 _
        have : (branches.getD k1 default).visual.column = some c := hcol1
        rw [hcols k1 hk1] at this
        cases this
  have hleni : i < placed.1.length := by rw [hInv.len1]; exact hi
  have hlenj : j < placed.1.length := by rw [hInv.len1]; exact hj
  rw [getD_map_of_lt _ _ _ _ default hleni] at hci
  rw [getD_map_of_lt _ _ _ _ default hlenj] at hcj
  cases hbi : (placed.1.getD i default).visual.column with
  | none =>
    rw [hbi] at hci
    dsimp only at hci
    rw [hbi] at hci
    cases hci
  | some c1 =>
    cases hbj : (placed.1.getD j default).visual.column with
    | none =>
      rw [hbj] at hcj
      dsimp only at hcj
      rw [hbj] at hcj
      cases hcj
    | some c2 =>
      rw [hbi] at hci
      rw [hbj] at hcj
      dsimp only at hci hcj
      have hgi := (hInv.pres i).2.1
      have hgj := (hInv.pres j).2.1
      rw [hgi] at hci
      rw [hgj] at hcj
      have heq1 : c1 + (if (branches.getD i default).visual.orderGroup == 0 then 0
          else (cumulativeLengths (placed.2.map List.length) 0).getD
            ((branches.getD i default).visual.orderGroup - 1) 0) = ci :=
        Option.some_inj.mp hci
      have heq2 : c2 + (if (branches.getD j default).visual.orderGroup == 0 then 0
          else (cumulativeLengths (placed.2.map List.length) 0).getD
            ((branches.getD j default).visual.orderGroup - 1) 0) = ci :=
        Option.some_inj.mp hcj
      obtain ⟨hmi, hlti⟩ := hInv.colinv i c1 hi hbi
      obtain ⟨hmj, hltj⟩ := hInv.colinv j c2 hj hbj
      have hgoi : (branches.getD i default).visual.orderGroup < placed.2.length := by
        rw [hInv.len2]
        exact Nat.lt_succ_of_le (hgroups i hi)
      have hgoj : (branches.getD j default).visual.orderGroup < placed.2.length := by
        rw [hInv.len2]
        exact Nat.lt_succ_of_le (hgroups j hj)
      obtain ⟨hgeq, hceq⟩ := offset_inj placed.2 _ _ c1 c2 hgoi hgoj hlti hltj
        (heq1.trans heq2.symm)
      subst hceq
      exact hInv.pairs i j c1 hi hj hne hbi hbj hgeq

/-- C5 witness: the theorem applied to two branches that do share the
final column 0. -/
theorem C5_witness :
    ¬ivOverlap (effIv [exColB1, exColB2] (([] : List CommitInfo).length - 1) 0)
      (effIv [exColB1, exColB2] (([] : List CommitInfo).length - 1) 1) :=
  C5_theorem [] (fun _ => none) [exColB1, exColB2] exSettings.branches true true
    (by decide) (by decide) 0 1 0 (by decide) (by decide) (by decide)
    (by decide) (by decide)

/-! Lemmas for the catalog order. -/

theorem branchOrder_le (name : String) (order : List Pattern) :
    branchOrder name order ≤ order.length := by
  unfold branchOrder
  cases hF : order.findIdx?
      (fun b => (strStartsWith name ORIGIN && b (strDrop name ORIGIN.length)) || b name) with
  | none => exact le_refl _
  | some i =>
    exact le_of_lt (List.findIdx?_eq_some_iff_findIdx_eq.mp hF).1

theorem keyLe_trans2 (a b c : BranchInfo) (h1 : keyLe a b = true) (h2 : keyLe b c = true) :
    keyLe a c = true := by
  unfold keyLe at *
  simp only [Bool.or_eq_true, Bool.and_eq_true, Nat.blt_eq, Nat.ble_eq, beq_iff_eq] at *
  omega

theorem keyLe_total2 (a b : BranchInfo) : keyLe a b = true ∨ keyLe b a = true := by
  unfold keyLe
  simp only [Bool.or_eq_true, Bool.and_eq_true, Nat.blt_eq, Nat.ble_eq, beq_iff_eq]
  omega

/-- every branch-ref candidate carries a persistence rank within the
table (given a table that does not overflow the `u8` cast). -/
theorem extractBranchRefs_persistence (settings : SettingsModel) (indices : Oid → Option Nat)
    (hLen : settings.branches.persistence.length ≤ 254) :
    ∀ (l : List RawBranch) (counter : Nat) (bs : List BranchInfo) (c2 : Nat),
      extractBranchRefs settings indices l counter = .ok (bs, c2) →
      ∀ b ∈ bs, b.persistence ≤ settings.branches.persistence.length := by
  intro l
  induction l with
  | nil =>
    intro counter bs c2 h b hb
    cases h
    cases hb
  | cons br rest ih =>
    intro counter bs c2 h b hb
    unfold extractBranchRefs at h
    split at h
    · by_cases hr : br.isRemote = true <;>
        [rw [if_pos hr] at h; rw [if_neg hr] at h] <;>
      · dsimp only at h
        split at h
        · cases h
        · split at h
          · cases h
          · next heq =>
            cases h
            rcases List.mem_cons.mp hb with rfl | hmem
            · simp only [BranchInfo.make]
              rw [Nat.mod_eq_of_lt (lt_of_le_of_lt (branchOrder_le _ _) (by omega))]
              exact branchOrder_le _ _
            · exact ih _ _ _ heq b hmem
    · exact ih _ _ _ h b hb

/-- the same bound for merge-derived candidates. -/
theorem extractMergeBranches_persistence (repo : Repo) (settings : SettingsModel)
    (hLen : settings.branches.persistence.length ≤ 254) :
    ∀ (l : List CommitInfo) (idx counter : Nat) (bs : List BranchInfo) (c2 : Nat),
      extractMergeBranches repo settings l idx counter = .ok (bs, c2) →
      ∀ b ∈ bs, b.persistence ≤ settings.branches.persistence.length := by
  intro l
  induction l with
  | nil =>
    intro idx counter bs c2 h b hb
    cases h
    cases hb
  | cons info rest ih =>
    intro idx counter bs c2 h b hb
    unfold extractMergeBranches at h
    split at h
    · cases h
    · by_cases hm : info.isMerge = true
      · rw [if_pos hm] at h
        split at h
        · try dsimp only at h
          split at h
          · cases h
          · try dsimp only at h
            split at h
            · cases h
            · split at h
              · cases h
              · next heq =>
                cases h
                rcases List.mem_cons.mp hb with rfl | hmem
                · simp only [BranchInfo.make]
                  rw [Nat.mod_eq_of_lt (lt_of_le_of_lt (branchOrder_le _ _) (by omega))]
                  exact branchOrder_le _ _
                · exact ih _ _ _ _ heq b hmem
        · exact ih _ _ _ _ h b hb
      · rw [if_neg hm] at h
        exact ih _ _ _ _ h b hb

/-- tag candidates all carry rank `persistence.len() as u8 + 1` and are
not merge-derived. -/
theorem extractTags_fields (settings : SettingsModel) (indices : Oid → Option Nat) :
    ∀ (l : List RawTag) (counter : Nat) (bs : List BranchInfo),
      extractTags settings indices l counter = .ok bs →
      ∀ b ∈ bs, b.persistence = (settings.branches.persistence.length % 256 + 1) % 256 ∧
        b.isMerged = false := by
  intro l
  induction l with
  | nil =>
    intro counter bs h b hb
    cases h
    cases hb
  | cons t rest ih =>
    intro counter bs h b hb
    unfold extractTags at h
    split at h
    · cases h
    · split at h
      · split at h
        · dsimp only at h
          split at h
          · cases h
          · split at h
            · cases h
            · next heq =>
              cases h
              rcases List.mem_cons.mp hb with rfl | hmem
              · exact ⟨rfl, rfl⟩
              · exact ih _ _ heq b hmem
        · exact ih _ _ h b hb
      · exact ih _ _ h b hb

/-- C4 amended: the catalog is sorted by the lexicographic key
`(persistence ascending, merge-derived before real)` — with merge-derived
candidates preceding real ones at equal rank, the reverse of the claimed
tiebreak; this list order is the order in which `assign_branches` invokes
`trace_branch` (it folds over the catalog positions in increasing order).
The hypothesis keeps the `persistence.len() as u8` cast from wrapping,
so that the tags appended after the sort rank strictly below
everything. -/
theorem C4_theorem (repo : Repo) (cs : List CommitInfo) (indices : Oid → Option Nat)
    (settings : SettingsModel) (bs : List BranchInfo)
    (hLen : settings.branches.persistence.length ≤ 254)
    (h : extractBranches repo cs indices settings = .ok bs) :
    bs.Pairwise (fun a b => keyLe a b = true) := by
  unfold extractBranches at h
  dsimp only at h
  split at h
  · cases h
  · next vb counter1 heq1 =>
    split at h
    · cases h
    · next mb counter2 heq2 =>
      split at h
      · cases h
      · next tb heq3 =>
        cases h
        rw [List.pairwise_append]
        refine ⟨?_, ?_, ?_⟩
        · haveI : IsTotal BranchInfo (fun a b => keyLe a b = true) :=
            ⟨fun a b => keyLe_total2 a b⟩
          haveI : IsTrans BranchInfo (fun a b => keyLe a b = true) :=
            ⟨fun a b c => keyLe_trans2 a b c⟩
          exact List.sorted_insertionSort _ _
        · refine List.pairwise_of_forall_mem_list ?_
          intro a ha b hb
          obtain ⟨hpa, hma⟩ := extractTags_fields settings indices _ _ _ heq3 a ha
          obtain ⟨hpb, hmb2⟩ := extractTags_fields settings indices _ _ _ heq3 b hb
          unfold keyLe sortKey
          rw [hpa, hpb, hma, hmb2]
          simp
        · intro a ha b hb
          have ha2 := (List.mem_insertionSort _).mp ha
          have hpa : a.persistence ≤ settings.branches.persistence.length := by
            rcases List.mem_append.mp ha2 with h1 | h1
            · exact extractBranchRefs_persistence settings indices hLen _ _ _ _ heq1 a h1
            · exact extractMergeBranches_persistence repo settings hLen _ _ _ _ _ heq2 a h1
          obtain ⟨hpb, _⟩ := extractTags_fields settings indices _ _ _ heq3 b hb
          unfold keyLe sortKey
          rw [hpb]
          have : settings.branches.persistence.length % 256 = settings.branches.persistence.length := by
            omega
          rw [this]
          simp only [Bool.or_eq_true, Nat.blt_eq]
          left
          omega

/-- C4 witness: the theorem applied to the first concrete input. -/
theorem C4_witness :
    exBranches1.Pairwise (fun a b => keyLe a b = true) :=
  C4_theorem exRepo1 exCommits1 (indicesOf exWalked1) exSettings exBranches1
    (by decide) rfl

/-- specialization of `updateAt_getD_map` to the name projection. -/
theorem updateAt_getD_name (l : List BranchInfo) (i : Nat) (f : BranchInfo → BranchInfo)
    (hf : ∀ x, (f x).name = x.name) (j : Nat) :
    ((updateAt l i f).getD j default).name = (l.getD j default).name :=
  updateAt_getD_map (fun b => b.name) l i f hf j default

/-- the walk never changes a branch's name. -/
theorem traceWalk_name (repo : Repo) (indices : Oid → Option Nat) :
    ∀ (fuel : Nat) (cs : List CommitInfo) (bs : List BranchInfo) (currOid : Oid)
      (k : Nat) (prev : Option Nat) (si : Option Int) (aa : Bool) (i : Nat),
    ((traceWalk repo indices fuel cs bs currOid k prev si aa).branches.getD i default).name
      = (bs.getD i default).name := by
  intro fuel
  induction fuel with
  | zero => intro cs bs currOid k prev si aa i; rfl
  | succ fuel ih =>
    intro cs bs currOid k prev si aa i
    unfold traceWalk
    dsimp only
    split
    · rfl
    · split
      · split
        · split
          · refine updateAt_getD_name bs _ _ (fun x => ?_) i
            rfl
          · split
            · refine updateAt_getD_name bs _ _ (fun x => ?_) i
              rfl
            · split
              · refine updateAt_getD_name bs _ _ (fun x => ?_) i
                rfl
              · refine (ih _ _ _ _ _ _ _ i).trans ?_
                refine updateAt_getD_name bs _ _ (fun x => ?_) i
                rfl
        · split
          · refine updateAt_getD_name bs _ _ (fun x => ?_) i
            rfl
          · rfl
      · split
        · rfl
        · split
          · rfl
          · split
            · rfl
            · exact ih _ _ _ _ _ _ _ i

/-- C1: commit ownership can be overwritten during a branch-tracing
walk, but only in favour of the walking candidate, and only when the
previous owner carries the same branch name as the walking candidate
(the same-name fall-through of `trace_branch`): any other reached owned
commit keeps its owner. -/
theorem C1_theorem (repo : Repo) (indices : Oid → Option Nat) (k pos : Nat) :
    ∀ (fuel : Nat) (cs : List CommitInfo) (bs : List BranchInfo) (currOid : Oid)
      (prev : Option Nat) (si : Option Int) (aa : Bool) (j j2 : Nat),
    (cs.getD pos default).branchTrace = some j →
    ((traceWalk repo indices fuel cs bs currOid k prev si aa).commits.getD pos
        default).branchTrace = some j2 →
    j2 = j ∨ (j2 = k ∧ (bs.getD j default).name = (bs.getD k default).name) := by
  intro fuel
  induction fuel with
  | zero =>
    intro cs bs currOid prev si aa j j2 hPre hPost
    unfold traceWalk at hPost
    dsimp only at hPost
    rw [hPre] at hPost
    exact Or.inl (Option.some.inj hPost).symm
  | succ fuel ih =>
    intro cs bs currOid prev si aa j j2 hPre hPost
    unfold traceWalk at hPost
    dsimp only at hPost
    split at hPost
    · dsimp only at hPost
      rw [hPre] at hPost
      exact Or.inl (Option.some.inj hPost).symm
    · next index hIdx =>
      split at hPost
      · next oldTrace hOwn =>
        split at hPost
        · next hCond =>
          have hIdxLt : index < cs.length := by
            by_contra hn
            rw [getD_of_le cs index default (Nat.le_of_not_lt hn)] at hOwn
            cases hOwn
          by_cases hpi : pos = index
          · have hoj : oldTrace = j := by
              rw [hpi] at hPre
              rw [hPre] at hOwn
              exact (Option.some.inj hOwn).symm
            have hname : (bs.getD j default).name = (bs.getD k default).name := by
              rw [← hoj]
              exact hCond.1.symm
            have hSelf : ((updateAt cs index (claimBy k)).getD pos
                default).branchTrace = some k := by
              rw [hpi, updateAt_getD_self cs index (claimBy k) default hIdxLt]
              rfl
            split at hPost
            · dsimp only at hPost
              rw [hSelf] at hPost
              exact Or.inr ⟨(Option.some.inj hPost).symm, hname⟩
            · split at hPost
              · dsimp only at hPost
                rw [hSelf] at hPost
                exact Or.inr ⟨(Option.some.inj hPost).symm, hname⟩
              · split at hPost
                · dsimp only at hPost
                  rw [hSelf] at hPost
                  exact Or.inr ⟨(Option.some.inj hPost).symm, hname⟩
                · rcases ih _ _ _ _ _ _ k j2 hSelf hPost with h | ⟨h, _⟩
                  · exact Or.inr ⟨h, hname⟩
                  · exact Or.inr ⟨h, hname⟩
          · have hPre2 : ((updateAt cs index (claimBy k)).getD pos
                default).branchTrace = some j := by
              rw [updateAt_getD_ne cs index (claimBy k) pos default hpi]
              exact hPre
            split at hPost
            · dsimp only at hPost
              rw [hPre2] at hPost
              exact Or.inl (Option.some.inj hPost).symm
            · split at hPost
              · dsimp only at hPost
                rw [hPre2] at hPost
                exact Or.inl (Option.some.inj hPost).symm
              · split at hPost
                · dsimp only at hPost
                  rw [hPre2] at hPost
                  exact Or.inl (Option.some.inj hPost).symm
                · rcases ih _ _ _ _ _ _ j j2 hPre2 hPost with h | ⟨hk2, hname2⟩
                  · exact Or.inl h
                  · refine Or.inr ⟨hk2, ?_⟩
                    rw [updateAt_getD_name bs oldTrace
                        (rangeAdjust (bs.getD oldTrace default).range index)
                        (fun x => rfl) j,
                      updateAt_getD_name bs oldTrace
                        (rangeAdjust (bs.getD oldTrace default).range index)
                        (fun x => rfl) k] at hname2
                    exact hname2
        · dsimp only at hPost
          rw [hPre] at hPost
          exact Or.inl (Option.some.inj hPost).symm
      · next hOwn =>
        by_cases hpi : pos = index
        · exfalso
          rw [hpi] at hPre
          rw [hPre] at hOwn
          cases hOwn
        · have hPre2 : ((updateAt cs index (claimBy k)).getD pos
              default).branchTrace = some j := by
            rw [updateAt_getD_ne cs index (claimBy k) pos default hpi]
            exact hPre
          split at hPost
          · dsimp only at hPost
            rw [hPre2] at hPost
            exact Or.inl (Option.some.inj hPost).symm
          · split at hPost
            · dsimp only at hPost
              rw [hPre2] at hPost
              exact Or.inl (Option.some.inj hPost).symm
            · split at hPost
              · dsimp only at hPost
                rw [hPre2] at hPost
                exact Or.inl (Option.some.inj hPost).symm
              · exact ih _ _ _ _ _ _ j j2 hPre2 hPost

/-- C1 witness: candidate 2 (the real `feature/x`) walks over commit 1,
which candidate 1 (the merge-derived `feature/x`) already owns, and the
theorem's disjunction is realised by the same-name overwrite. -/
theorem C1_witness :
    (exSt2.commits.getD 1 default).branchTrace = some 1 ∧
    ((traceWalk exRepo1 (indicesOf exWalked1) 5 exSt2.commits exSt2.branches
        12 2 none none false).commits.getD 1 default).branchTrace = some 2 ∧
    (2 = 1 ∨ (2 = 2 ∧ (exSt2.branches.getD 1 default).name
      = (exSt2.branches.getD 2 default).name)) :=
  ⟨by decide, by decide,
    C1_theorem exRepo1 (indicesOf exWalked1) 2 1 5 exSt2.commits exSt2.branches
      12 none none false 1 2 (by decide) (by decide)⟩

/-- C2: on reaching a commit owned by a same-named branch whose
recorded range start is at least the walker's hint, the walk adjusts the
previous owner's range exactly as described (extend its start down to
the reached position, or invalidate it to `(none, none)` when the
position lies after its recorded end) — but it does not stop: the commit
is claimed for the walking candidate and the walk continues at the first
parent. -/
theorem C2_theorem (repo : Repo) (indices : Oid → Option Nat)
    (fuel : Nat) (cs : List CommitInfo) (bs : List BranchInfo) (currOid : Oid)
    (k : Nat) (prev : Option Nat) (si : Option Int) (aa : Bool)
    (index oldTrace : Nat) (commit : CommitData) (p : Oid)
    (hIdx : indices currOid = some index)
    (hOwn : (cs.getD index default).branchTrace = some oldTrace)
    (hName : (bs.getD k default).name = (bs.getD oldTrace default).name)
    (hHint : (bs.getD k default).range.1.getD 0
      ≤ (bs.getD oldTrace default).range.1.getD 0)
    (hFind : repo.findCommit currOid = some commit)
    (hNE : (commit.parents.length == 0) = false)
    (hPar : commit.parents.get? 0 = some p)
    (hOT : oldTrace < bs.length) :
    traceWalk repo indices (fuel + 1) cs bs currOid k prev si aa
      = traceWalk repo indices fuel (updateAt cs index (claimBy k))
          (updateAt bs oldTrace
            (rangeAdjust (bs.getD oldTrace default).range index))
          p k (some index) si true
    ∧ ((updateAt cs index (claimBy k)).getD index default).branchTrace = some k
    ∧ ((updateAt bs oldTrace
          (rangeAdjust (bs.getD oldTrace default).range index)).getD oldTrace
            default).range
        = (match (bs.getD oldTrace default).range.2 with
           | some oldEnd =>
             if oldEnd < index then (none, none)
             else (some index, (bs.getD oldTrace default).range.2)
           | none => (some index, (bs.getD oldTrace default).range.2)) := by
  have hIdxLt : index < cs.length := by
    by_contra hn
    rw [getD_of_le cs index default (Nat.le_of_not_lt hn)] at hOwn
    cases hOwn
  refine ⟨?_, ?_, ?_⟩
  · generalize hR : traceWalk repo indices fuel (updateAt cs index (claimBy k))
        (updateAt bs oldTrace
          (rangeAdjust (bs.getD oldTrace default).range index))
        p k (some index) si true = R
    unfold traceWalk
    try dsimp only
    rw [hIdx]
    try dsimp only
    rw [hOwn]
    try dsimp only
    rw [if_pos ⟨hName, hHint⟩]
    try dsimp only
    rw [hFind]
    try dsimp only
    rw [if_neg (by rw [hNE]; exact Bool.false_ne_true)]
    rw [hPar]
    try dsimp only
    exact hR
  · rw [updateAt_getD_self cs index (claimBy k) default hIdxLt]
    rfl
  · rw [updateAt_getD_self bs oldTrace
      (rangeAdjust (bs.getD oldTrace default).range index) default hOT]
    rfl

/-- C2 witness: in the second concrete input the real `feature/x`
(candidate 2) reaches commit 1, owned by the merge-derived `feature/x`
(candidate 1); the owner's range is adjusted and the walk continues at
parent 14, claiming the commit. -/
theorem C2_witness :
    traceWalk exRepo2 (indicesOf exWalked2) 6 exU2.commits exU2.branches
        12 2 none none false
      = traceWalk exRepo2 (indicesOf exWalked2) 5
          (updateAt exU2.commits 1 (claimBy 2))
          (updateAt exU2.branches 1
            (rangeAdjust (exU2.branches.getD 1 default).range 1))
          14 2 (some 1) none true
    ∧ ((updateAt exU2.commits 1 (claimBy 2)).getD 1 default).branchTrace = some 2
    ∧ ((updateAt exU2.branches 1
          (rangeAdjust (exU2.branches.getD 1 default).range 1)).getD 1
            default).range
        = (match (exU2.branches.getD 1 default).range.2 with
           | some oldEnd =>
             if oldEnd < 1 then (none, none)
             else (some 1, (exU2.branches.getD 1 default).range.2)
           | none => (some 1, (exU2.branches.getD 1 default).range.2)) :=
  C2_theorem exRepo2 (indicesOf exWalked2) 5 exU2.commits exU2.branches 12 2
    none none false 1 1 ⟨12, [14], some "B1"⟩ 14 (by decide) (by decide)
    (by decide) (by decide) (by decide) (by decide) (by decide) (by decide)

/-- the walk never changes the number of candidates. -/
theorem traceWalk_branches_length (repo : Repo) (indices : Oid → Option Nat) :
    ∀ (fuel : Nat) (cs : List CommitInfo) (bs : List BranchInfo) (currOid : Oid)
      (k : Nat) (prev : Option Nat) (si : Option Int) (aa : Bool),
    (traceWalk repo indices fuel cs bs currOid k prev si aa).branches.length
      = bs.length := by
  intro fuel
  induction fuel with
  | zero => intro cs bs currOid k prev si aa; rfl
  | succ fuel ih =>
    intro cs bs currOid k prev si aa
    unfold traceWalk
    dsimp only
    split
    · rfl
    · split
      · split
        · split
          · exact updateAt_length bs _ _
          · split
            · exact updateAt_length bs _ _
            · split
              · exact updateAt_length bs _ _
              · exact (ih _ _ _ _ _ _ _).trans (updateAt_length bs _ _)
        · split
          · exact updateAt_length bs _ _
          · rfl
      · split
        · rfl
        · split
          · rfl
          · split
            · rfl
            · exact ih _ _ _ _ _ _ _

/-- `trace_branch` never changes the number of candidates. -/
theorem traceBranch_branches_length (repo : Repo) (indices : Oid → Option Nat)
    (cs : List CommitInfo) (bs : List BranchInfo) (oid : Oid) (k : Nat) :
    (traceBranch repo indices cs bs oid k).branches.length = bs.length := by
  unfold traceBranch
  dsimp only
  split
  · exact traceWalk_branches_length repo indices _ cs bs oid k none none false
  · exact (updateAt_length _ _ _).trans
      (traceWalk_branches_length repo indices _ cs bs oid k none none false)

/-- one tracing step never changes the number of candidates. -/
theorem coreStep_branches_length (repo : Repo) (indices : Oid → Option Nat)
    (st : CoreState) (n : Nat) :
    (coreStep repo indices st n).branches.length = st.branches.length := by
  unfold coreStep
  dsimp only
  split
  · rw [apply_ite (fun s : CoreState => s.branches.length)]
    dsimp only
    rw [ite_self]
    exact traceBranch_branches_length repo indices _ st.branches _ _
  · rfl

/-- one tracing step appends exactly one `index_map` entry. -/
theorem coreStep_im_length (repo : Repo) (indices : Oid → Option Nat)
    (st : CoreState) (n : Nat) :
    (coreStep repo indices st n).indexMap.length = st.indexMap.length + 1 := by
  unfold coreStep
  dsimp only
  split
  · rw [apply_ite (fun s : CoreState => s.indexMap.length)]
    dsimp only
    simp [List.length_append]
  · simp

/-- appending either `some branch_idx` (and bumping the counter) or
`none` preserves the consecutive-run shape of the `Some` entries. -/
theorem somes_append_aux (im2 : List (Option Nat)) (bIdx : Nat) (c : Prop)
    [Decidable c] (h : im2.filterMap id = List.range bIdx) :
    (if c then im2 ++ [some bIdx] else im2 ++ [none]).filterMap id
      = List.range (if c then bIdx + 1 else bIdx) := by
  split
  · rw [List.filterMap_append, h, List.range_succ]
    rfl
  · rw [List.filterMap_append, h]
    simp

/-- one tracing step preserves the first-pass numbering invariant: the
`Some` entries of `index_map` are exactly `0, 1, …, branch_idx - 1` in
order. -/
theorem coreStep_somes (repo : Repo) (indices : Oid → Option Nat)
    (st : CoreState) (n : Nat)
    (h : st.indexMap.filterMap id = List.range st.branchIdx) :
    (coreStep repo indices st n).indexMap.filterMap id
      = List.range (coreStep repo indices st n).branchIdx := by
  unfold coreStep
  dsimp only
  split
  · rw [apply_ite (fun s : CoreState => s.indexMap),
      apply_ite (fun s : CoreState => s.branchIdx)]
    dsimp only
    exact somes_append_aux st.indexMap st.branchIdx _ h
  · simp [List.filterMap_append, h]

/-- folding tracing steps never changes the number of candidates. -/
theorem coreFoldl_branches_length (repo : Repo) (indices : Oid → Option Nat) :
    ∀ (l : List Nat) (st : CoreState),
    ((l.foldl (coreStep repo indices) st).branches).length = st.branches.length := by
  intro l
  induction l with
  | nil => intro st; rfl
  | cons x xs ih =>
    intro st
    rw [List.foldl_cons, ih, coreStep_branches_length]

/-- folding tracing steps appends one `index_map` entry per step. -/
theorem coreFoldl_im_length (repo : Repo) (indices : Oid → Option Nat) :
    ∀ (l : List Nat) (st : CoreState),
    ((l.foldl (coreStep repo indices) st).indexMap).length
      = st.indexMap.length + l.length := by
  intro l
  induction l with
  | nil => intro st; rfl
  | cons x xs ih =>
    intro st
    rw [List.foldl_cons, ih, coreStep_im_length]
    simp [Nat.add_assoc, Nat.add_comm 1 xs.length]

/-- folding tracing steps preserves the first-pass numbering invariant. -/
theorem coreFoldl_somes (repo : Repo) (indices : Oid → Option Nat) :
    ∀ (l : List Nat) (st : CoreState),
    st.indexMap.filterMap id = List.range st.branchIdx →
    ((l.foldl (coreStep repo indices) st).indexMap).filterMap id
      = List.range ((l.foldl (coreStep repo indices) st)).branchIdx := by
  intro l
  induction l with
  | nil => intro st h; exact h
  | cons x xs ih =>
    intro st h
    rw [List.foldl_cons]
    exact ih _ (coreStep_somes repo indices st x h)

/-- the counting fold preserves the accumulator's length. -/
theorem countFoldl_length :
    ∀ (l : List CommitInfo) (acc : List Nat),
    (l.foldl (fun acc info =>
      match info.branchTrace with
      | some trace => updateAt acc trace (· + 1)
      | none => acc) acc).length = acc.length := by
  intro l
  induction l with
  | nil => intro acc; rfl
  | cons x xs ih =>
    intro acc
    rw [List.foldl_cons]
    refine (ih _).trans ?_
    cases hx : x.branchTrace with
    | none => rfl
    | some tr => exact updateAt_length acc tr _

/-- `commit_count` has one entry per candidate. -/
theorem commitCountFold_length (cs : List CommitInfo) (n : Nat) :
    (commitCountFold cs n).length = n := by
  unfold commitCountFold
  rw [countFoldl_length]
  exact List.length_replicate n 0

/-- projecting the first components out of a zip. -/
theorem zip_filterMap_fst {β : Type} :
    ∀ (l1 : List (Option Nat)) (l2 : List β), l1.length ≤ l2.length →
    (l1.zip l2).filterMap (fun p => p.1) = l1.filterMap id := by
  intro l1
  induction l1 with
  | nil => intro l2 h; rfl
  | cons x xs ih =>
    intro l2 h
    cases l2 with
    | nil => simp at h
    | cons y ys =>
      show ((x, y) :: xs.zip ys).filterMap (fun p => p.1) = (x :: xs).filterMap id
      cases x with
      | none =>
        simp only [List.filterMap_cons]
        exact ih ys (Nat.le_of_succ_le_succ h)
      | some v =>
        simp only [List.filterMap_cons]
        try dsimp only
        rw [ih ys (Nat.le_of_succ_le_succ h)]
        rfl

/-- the drop pass keeps the entry count. -/
theorem dropFold_length :
    ∀ (L : List (Option Nat × Nat × Bool)) (sk : Nat),
    (dropFold L sk).length = L.length := by
  intro L
  induction L with
  | nil => intro sk; rfl
  | cons x rest ih =>
    intro sk
    rcases x with ⟨o, cnt, flag⟩
    cases o with
    | none => simp [dropFold, ih]
    | some m => unfold dropFold; split <;> simp [ih]

/-- the drop pass renumbers contiguously: if the `Some` values of the
input are the consecutive run `a, a+1, …`, the `Some` values of the
output are the consecutive run starting at `a - sk`. -/
theorem dropFold_somes :
    ∀ (L : List (Option Nat × Nat × Bool)) (sk a n : Nat),
    L.filterMap (fun p => p.1) = List.range' a n → sk ≤ a →
    ∃ m, (dropFold L sk).filterMap id = List.range' (a - sk) m := by
  intro L
  induction L with
  | nil => intro sk a n h hle; exact ⟨0, rfl⟩
  | cons x rest ih =>
    intro sk a n h hle
    rcases x with ⟨o, cnt, flag⟩
    cases o with
    | none =>
      have h' : rest.filterMap (fun p => p.1) = List.range' a n := by
        simpa [List.filterMap_cons] using h
      obtain ⟨m, hm⟩ := ih sk a n h' hle
      exact ⟨m, by simpa [dropFold, List.filterMap_cons] using hm⟩
    | some v =>
      rw [List.filterMap_cons] at h
      dsimp only at h
      cases n with
      | zero => cases h
      | succ n' =>
        rw [List.range'_succ] at h
        have hva : v = a := (List.cons.injEq _ _ _ _ ▸ h).1
        have hrest : rest.filterMap (fun p => p.1) = List.range' (a + 1) n' :=
          (List.cons.injEq _ _ _ _ ▸ h).2
        by_cases hd : (cnt == 0 && flag) = true
        · obtain ⟨m, hm⟩ := ih (sk + 1) (a + 1) n' hrest (by omega)
          refine ⟨m, ?_⟩
          have he : a + 1 - (sk + 1) = a - sk := by omega
          rw [he] at hm
          simpa [dropFold, hd, List.filterMap_cons] using hm
        · obtain ⟨m, hm⟩ := ih sk (a + 1) n' hrest (by omega)
          refine ⟨m + 1, ?_⟩
          have he : a + 1 - sk = (a - sk) + 1 := by omega
          rw [he] at hm
          have harms : dropFold ((some v, cnt, flag) :: rest) sk
              = some (v - sk) :: dropFold rest sk := by
            simp only [dropFold]
            rw [if_neg hd]
          rw [harms, List.filterMap_cons]
          try dsimp only
          rw [hm, hva, List.range'_succ]
          rfl

/-- a surviving `index_map` entry comes from a first-pass `Some` entry
that the drop pass did not remove. -/
theorem dropFold_isSome_entry :
    ∀ (L : List (Option Nat × Nat × Bool)) (sk idx : Nat),
    ((dropFold L sk).getD idx none).isSome = true →
    idx < L.length ∧ ∃ v, (L.getD idx (none, 0, false)).1 = some v ∧
      ¬((L.getD idx (none, 0, false)).2.1 = 0
        ∧ (L.getD idx (none, 0, false)).2.2 = true) := by
  intro L
  induction L with
  | nil => intro sk idx h; cases h
  | cons x rest ih =>
    intro sk idx
    rcases x with ⟨o, cnt, flag⟩
    cases o with
    | none =>
      cases idx with
      | zero => intro h; cases h
      | succ i =>
        intro h
        obtain ⟨h1, v, h2, h3⟩ := ih sk i h
        exact ⟨Nat.succ_lt_succ h1, v, h2, h3⟩
    | some m =>
      by_cases hd : (cnt == 0 && flag) = true
      · have hD : dropFold ((some m, cnt, flag) :: rest) sk
            = none :: dropFold rest (sk + 1) := by
          simp only [dropFold]
          rw [if_pos hd]
        cases idx with
        | zero => intro h; rw [hD] at h; cases h
        | succ i =>
          intro h
          rw [hD] at h
          obtain ⟨h1, v, h2, h3⟩ := ih (sk + 1) i h
          exact ⟨Nat.succ_lt_succ h1, v, h2, h3⟩
      · have hD : dropFold ((some m, cnt, flag) :: rest) sk
            = some (m - sk) :: dropFold rest sk := by
          simp only [dropFold]
          rw [if_neg hd]
        cases idx with
        | zero =>
          intro h
          refine ⟨Nat.succ_pos _, m, rfl, ?_⟩
          intro hcontra
          rcases hcontra with ⟨h1, h2⟩
          apply hd
          rw [show cnt = 0 from h1, show flag = true from h2]
          rfl
        | succ i =>
          intro h
          rw [hD] at h
          obtain ⟨h1, v, h2, h3⟩ := ih sk i h
          exact ⟨Nat.succ_lt_succ h1, v, h2, h3⟩

/-- a `getD` hit on an optional list is in its `filterMap id`. -/
theorem getD_some_mem_filterMap :
    ∀ (l : List (Option Nat)) (i t : Nat),
    l.getD i none = some t → t ∈ l.filterMap id := by
  intro l
  induction l with
  | nil => intro i t h; exact Option.noConfusion h
  | cons x xs ih =>
    intro i t h
    cases i with
    | zero =>
      have hx : x = some t := h
      subst hx
      simp [List.filterMap_cons]
    | succ i =>
      have h' : xs.getD i none = some t := h
      have hmem := ih i t h'
      cases x with
      | none => simpa [List.filterMap_cons] using hmem
      | some v =>
        simp only [List.filterMap_cons]
        exact List.mem_cons_of_mem v hmem

/-- the surviving branch list has one entry per surviving `index_map`
entry. -/
theorem filterBranches_length :
    ∀ (bs : List BranchInfo) (im : List (Option Nat)),
    bs.length = im.length →
    (filterBranches bs im).length = (im.filterMap id).length := by
  intro bs
  induction bs with
  | nil =>
    intro im h
    cases im with
    | nil => rfl
    | cons o os => simp at h
  | cons b bs ih =>
    intro im h
    cases im with
    | nil => simp at h
    | cons o os =>
      have h' : bs.length = os.length := by simpa using h
      have hrec := ih os h'
      cases o with
      | none =>
        show (filterBranches bs os).length = (List.filterMap id os).length
        exact hrec
      | some v =>
        show (b :: filterBranches bs os).length = (v :: List.filterMap id os).length
        simp [hrec]

/-- every member of the surviving branch list is a candidate whose
`index_map` entry survived. -/
theorem filterBranches_mem :
    ∀ (bs : List BranchInfo) (im : List (Option Nat)) (b : BranchInfo),
    b ∈ filterBranches bs im →
    ∃ idx, idx < bs.length ∧ idx < im.length ∧ bs.getD idx default = b
      ∧ (im.getD idx none).isSome = true := by
  intro bs
  induction bs with
  | nil => intro im b h; exact absurd h (List.not_mem_nil b)
  | cons x bs ih =>
    intro im b h
    cases im with
    | nil => exact absurd h (List.not_mem_nil b)
    | cons o os =>
      cases o with
      | none =>
        obtain ⟨idx, h1, h2, h3, h4⟩ := ih os b h
        exact ⟨idx + 1, Nat.succ_lt_succ h1, Nat.succ_lt_succ h2, h3, h4⟩
      | some v =>
        rcases List.mem_cons.mp h with rfl | h'
        · exact ⟨0, Nat.succ_pos _, Nat.succ_pos _, rfl, rfl⟩
        · obtain ⟨idx, h1, h2, h3, h4⟩ := ih os b h'
          exact ⟨idx + 1, Nat.succ_lt_succ h1, Nat.succ_lt_succ h2, h3, h4⟩

/-- componentwise `getD` of a zip. -/
theorem zip_getD {α β : Type} :
    ∀ (l1 : List α) (l2 : List β) (i : Nat) (d1 : α) (d2 : β),
    i < l1.length → i < l2.length →
    (l1.zip l2).getD i (d1, d2) = (l1.getD i d1, l2.getD i d2) := by
  intro l1
  induction l1 with
  | nil => intro l2 i d1 d2 h1 h2; simp at h1
  | cons x xs ih =>
    intro l2 i d1 d2 h1 h2
    cases l2 with
    | nil => simp at h2
    | cons y ys =>
      cases i with
      | zero => rfl
      | succ i =>
        exact ih ys i d1 d2 (Nat.lt_of_succ_lt_succ h1) (Nat.lt_of_succ_lt_succ h2)

/-- C6: after consolidation every commit of the exposed filtered
sequence has exactly one owner index; that owner index is a valid
position in the final contiguously renumbered branch list; and every
member of the final branch list is a candidate that either owns a commit
after tracing or is not a merge-derived non-tag candidate (equivalently,
merge-derived non-tag candidates owning zero commits are absent). -/
theorem C6_theorem (repo : Repo) (indices : Oid → Option Nat)
    (cs : List CommitInfo) (bs0 : List BranchInfo)
    (cs' : List CommitInfo) (bs' : List BranchInfo)
    (h : assignBranchesCore repo indices cs bs0 = (cs', bs')) :
    (∀ c ∈ cs'.filter (fun i => i.branchTrace.isSome), c.branchTrace.isSome = true)
    ∧ (∀ c ∈ cs'.filter (fun i => i.branchTrace.isSome), ∀ t : Nat,
        c.branchTrace = some t → t < bs'.length)
    ∧ (∀ b ∈ bs', ∃ idx : Nat,
        idx < (coreFold repo indices cs bs0).branches.length
        ∧ (coreFold repo indices cs bs0).branches.getD idx default = b
        ∧ ¬((commitCountFold (coreFold repo indices cs bs0).commits
              bs0.length).getD idx 0 = 0
            ∧ b.isMerged = true ∧ b.isTag = false)) := by
  have hc := congrArg Prod.fst h
  have hb := congrArg Prod.snd h
  unfold assignBranchesCore at hc hb
  dsimp only at hc hb
  set st := coreFold repo indices cs bs0 with hst
  set counts := commitCountFold st.commits bs0.length with hcounts
  set im := finalIndexMap st counts with him
  have hBL : st.branches.length = bs0.length := by
    rw [hst]
    unfold coreFold
    rw [coreFoldl_branches_length]
  have hIMlen : st.indexMap.length = bs0.length := by
    rw [hst]
    unfold coreFold
    rw [coreFoldl_im_length]
    simp
  have hCL : counts.length = bs0.length := by
    rw [hcounts]
    exact commitCountFold_length _ _
  have hSomes : st.indexMap.filterMap id = List.range st.branchIdx := by
    rw [hst]
    unfold coreFold
    exact coreFoldl_somes repo indices _ _ rfl
  have hZlen : (counts.zip (st.branches.map
      (fun b => b.isMerged && !b.isTag))).length = bs0.length := by
    rw [List.length_zip, List.length_map, hBL, hCL]
    exact Nat.min_self _
  have hLfm : (st.indexMap.zip (counts.zip (st.branches.map
        (fun b => b.isMerged && !b.isTag)))).filterMap (fun p => p.1)
      = List.range' 0 st.branchIdx := by
    rw [zip_filterMap_fst _ _ (le_of_eq (hIMlen.trans hZlen.symm)), hSomes,
      List.range_eq_range']
  obtain ⟨m, hm⟩ := dropFold_somes _ 0 0 st.branchIdx hLfm (Nat.le_refl 0)
  have him' : im = dropFold (st.indexMap.zip (counts.zip (st.branches.map
      (fun b => b.isMerged && !b.isTag)))) 0 := by
    rw [him]
    rfl
  have hmIm : im.filterMap id = List.range' 0 m := by
    rw [him']
    exact hm
  have hImLen : im.length = bs0.length := by
    rw [him', dropFold_length, List.length_zip, hIMlen, hZlen]
    exact Nat.min_self _
  have hbsLen : bs'.length = m := by
    rw [← hb, filterBranches_length st.branches im (hBL.trans hImLen.symm), hmIm]
    simp
  refine ⟨?_, ?_, ?_⟩
  · intro c hc2
    exact (List.mem_filter.mp hc2).2
  · intro c hc2 t ht
    have hcm : c ∈ cs' := (List.mem_filter.mp hc2).1
    rw [← hc] at hcm
    obtain ⟨c0, _, rfl⟩ := List.mem_map.mp hcm
    unfold remapCommit at ht
    split at ht
    · next tr heq =>
      dsimp only at ht
      have hmem := getD_some_mem_filterMap im tr t ht
      rw [hmIm] at hmem
      rw [hbsLen]
      have := List.mem_range'_1.mp hmem
      omega
    · next heq =>
      rw [heq] at ht
      cases ht
  · intro b hb2
    rw [← hb] at hb2
    obtain ⟨idx, h1, h2, h3, h4⟩ := filterBranches_mem st.branches im b hb2
    refine ⟨idx, h1, h3, ?_⟩
    rw [him'] at h4
    obtain ⟨hlt, v, hv, hnot⟩ := dropFold_isSome_entry _ 0 idx h4
    have hidx : idx < bs0.length := by
      rw [hImLen] at h2
      exact h2
    rw [zip_getD st.indexMap _ idx none (0, false)
      (by rw [hIMlen]; exact hidx) (by rw [hZlen]; exact hidx)] at hnot
    rw [zip_getD counts _ idx 0 false
      (by rw [hCL]; exact hidx)
      (by rw [List.length_map, hBL]; exact hidx)] at hnot
    dsimp only at hnot
    rw [getD_map_of_lt _ st.branches idx false default
      (by rw [hBL]; exact hidx), h3] at hnot
    intro hcontra
    rcases hcontra with ⟨hz, hm1, ht1⟩
    exact hnot ⟨hz, by rw [hm1, ht1]; rfl⟩

/-- C6 witness: the theorem applied to the first concrete input's
consolidation. -/
theorem C6_witness :
    (∀ c ∈ exCore1.1.filter (fun i => i.branchTrace.isSome),
      c.branchTrace.isSome = true)
    ∧ (∀ c ∈ exCore1.1.filter (fun i => i.branchTrace.isSome), ∀ t : Nat,
        c.branchTrace = some t → t < exCore1.2.length)
    ∧ (∀ b ∈ exCore1.2, ∃ idx : Nat,
        idx < (coreFold exRepo1 (indicesOf exWalked1) exCommits1
          exBranches1).branches.length
        ∧ (coreFold exRepo1 (indicesOf exWalked1) exCommits1
            exBranches1).branches.getD idx default = b
        ∧ ¬((commitCountFold (coreFold exRepo1 (indicesOf exWalked1) exCommits1
              exBranches1).commits exBranches1.length).getD idx 0 = 0
            ∧ b.isMerged = true ∧ b.isTag = false)) :=
  C6_theorem exRepo1 (indicesOf exWalked1) exCommits1 exBranches1
    exCore1.1 exCore1.2 rfl

/-- positions handed out by the index are positions of the walked
sequence. -/
theorem indicesOf_lt (walked : List CommitData) (o : Oid) (n : Nat)
    (h : indicesOf walked o = some n) : n < walked.length :=
  (List.findIdx?_eq_some_iff_findIdx_eq.mp h).1

/-- the range adjustment of a previous owner always leaves a valid
range: either it invalidates both bounds, or it moves the first bound to
a position at most the still-recorded second bound. -/
theorem rangeAdjust_self_rangeOK (ob : BranchInfo) (index : Nat) :
    RangeOK ((rangeAdjust ob.range index ob).range) := by
  unfold rangeAdjust
  dsimp only
  cases hR : ob.range.2 with
  | none => exact trivial
  | some oldEnd =>
    dsimp only
    by_cases hlt : oldEnd < index
    · rw [if_pos hlt]
      exact trivial
    · rw [if_neg hlt]
      show index ≤ oldEnd
      omega

/-- adjusting the old owner's range preserves validity of all ranges. -/
theorem updateAt_rangeAdjust_rangeOK (bs : List BranchInfo)
    (oldTrace index : Nat)
    (h : ∀ j, RangeOK ((bs.getD j default).range)) :
    ∀ j, RangeOK (((updateAt bs oldTrace
      (rangeAdjust (bs.getD oldTrace default).range index)).getD j
        default).range) := by
  intro j
  by_cases hj : j = oldTrace
  · subst hj
    by_cases hlt : j < bs.length
    · rw [updateAt_getD_self bs j _ default hlt]
      exact rangeAdjust_self_rangeOK (bs.getD j default) index
    · rw [updateAt_of_le bs j _ (Nat.le_of_not_lt hlt)]
      exact h j
  · rw [updateAt_getD_ne bs oldTrace _ j default hj]
    exact h j

/-- an update that does not touch ranges preserves their validity. -/
theorem updateAt_preserve_rangeOK (bs : List BranchInfo) (i : Nat)
    (f : BranchInfo → BranchInfo) (hf : ∀ x, (f x).range = x.range)
    (h : ∀ j, RangeOK ((bs.getD j default).range)) (j : Nat) :
    RangeOK (((updateAt bs i f).getD j default).range) := by
  rw [updateAt_getD_map (fun b => b.range) bs i f hf j default]
  exact h j

/-- the walk keeps every branch's range valid. -/
theorem traceWalk_rangeOK (repo : Repo) (indices : Oid → Option Nat) :
    ∀ (fuel : Nat) (cs : List CommitInfo) (bs : List BranchInfo) (currOid : Oid)
      (k : Nat) (prev : Option Nat) (si : Option Int) (aa : Bool),
    (∀ j, RangeOK ((bs.getD j default).range)) →
    ∀ j, RangeOK (((traceWalk repo indices fuel cs bs currOid k prev si
      aa).branches.getD j default).range) := by
  intro fuel
  induction fuel with
  | zero => intro cs bs currOid k prev si aa h j; exact h j
  | succ fuel ih =>
    intro cs bs currOid k prev si aa h j
    unfold traceWalk
    dsimp only
    split
    · exact h j
    · split
      · split
        · split
          · exact updateAt_rangeAdjust_rangeOK bs _ _ h j
          · split
            · exact updateAt_rangeAdjust_rangeOK bs _ _ h j
            · split
              · exact updateAt_rangeAdjust_rangeOK bs _ _ h j
              · exact ih _ _ _ _ _ _ _ (updateAt_rangeAdjust_rangeOK bs _ _ h) j
        · split
          · refine updateAt_preserve_rangeOK bs _ _ (fun x => ?_) h j
            rfl
          · exact h j
      · split
        · exact h j
        · split
          · exact h j
          · split
            · exact h j
            · exact ih _ _ _ _ _ _ _ h j

/-- the sibling scan only produces positions below the given bound. -/
theorem foldl_sib_lt (indices : Oid → Option Nat) (c : Oid) (W : Nat)
    (hI : ∀ o n, indices o = some n → n < W) :
    ∀ (l : List Oid) (t : Nat), t < W →
    l.foldl (fun t sib => if sib ≠ c then
      (if t < (indices sib).getD 0 then (indices sib).getD 0 else t) else t)
      t < W := by
  intro l
  induction l with
  | nil => intro t ht; exact ht
  | cons x xs ih =>
    intro t ht
    rw [List.foldl_cons]
    apply ih
    by_cases hsc : x ≠ c
    · rw [if_pos hsc]
      by_cases htg : t < (indices x).getD 0
      · rw [if_pos htg]
        cases hg : indices x with
        | none => show (0 : Nat) < W; omega
        | some n => exact hI x n hg
      · rw [if_neg htg]
        exact ht
    · rw [if_neg hsc]
      exact ht

/-- every boundary the walk records is below the walked length. -/
theorem traceWalk_startIndex_lt (repo : Repo) (walked : List CommitData) :
    ∀ (fuel : Nat) (cs : List CommitInfo) (bs : List BranchInfo) (currOid : Oid)
      (k : Nat) (prev : Option Nat) (si : Option Int) (aa : Bool),
    (∀ p, prev = some p → p < walked.length) →
    (∀ x : Int, si = some x → x < (walked.length : Int)) →
    ∀ y : Int,
    (traceWalk repo (indicesOf walked) fuel cs bs currOid k prev si
      aa).startIndex = some y →
    y < (walked.length : Int) := by
  intro fuel
  induction fuel with
  | zero => intro cs bs currOid k prev si aa hp hs y hy; exact hs y hy
  | succ fuel ih =>
    intro cs bs currOid k prev si aa hp hs y hy
    unfold traceWalk at hy
    dsimp only at hy
    split at hy
    · exact hs y hy
    · next index hIdx =>
      have hIdxLt : index < walked.length := indicesOf_lt walked currOid index hIdx
      split at hy
      · split at hy
        · split at hy
          · try dsimp only at hy
            exact hs y hy
          · split at hy
            · try dsimp only at hy
              have h1 := Option.some.inj hy
              omega
            · split at hy
              · try dsimp only at hy
                exact hs y hy
              · exact ih _ _ _ _ _ _ _
                  (fun p h2 => (Option.some.inj h2) ▸ hIdxLt) hs y hy
        · try dsimp only at hy
          split at hy
          · have h1 := Option.some.inj hy
            omega
          · rename_i A1 A2 A3
            split at hy
            · have h1 := Option.some.inj hy
              have hT := foldl_sib_lt (indicesOf walked) currOid walked.length
                (fun o n h3 => indicesOf_lt walked o n h3)
                ((cs.getD index default).children) _ (hp A3 rfl)
              omega
            · have h1 := Option.some.inj hy
              omega
      · split at hy
        · try dsimp only at hy
          exact hs y hy
        · split at hy
          · try dsimp only at hy
            have h1 := Option.some.inj hy
            omega
          · split at hy
            · try dsimp only at hy
              exact hs y hy
            · exact ih _ _ _ _ _ _ _
                (fun p h2 => (Option.some.inj h2) ▸ hIdxLt) hs y hy

/-- a range without a second bound is valid. -/
theorem rangeOK_snd_none : ∀ (x : Option Nat), RangeOK (x, none) := by
  intro x
  cases x <;> exact trivial

/-- a range without a first bound is valid. -/
theorem rangeOK_fst_none : ∀ (y : Option Nat), RangeOK (none, y) := by
  intro y
  cases y <;> exact trivial

/-- `trace_branch` keeps every branch's range valid: the walk only
shrinks or invalidates previous owners' ranges, and the reconciliation
guard refuses a boundary before the recorded first bound. -/
theorem traceBranch_rangeOK (repo : Repo) (walked : List CommitData)
    (cs : List CommitInfo) (bs : List BranchInfo) (oid : Oid) (k : Nat)
    (hW : walked.length < 18446744073709551616)
    (hPre : ∀ j, RangeOK ((bs.getD j default).range)) :
    ∀ j, RangeOK (((traceBranch repo (indicesOf walked) cs bs oid
      k).branches.getD j default).range) := by
  intro j
  have hWalk := traceWalk_rangeOK repo (indicesOf walked) (cs.length + 1)
    cs bs oid k none none false hPre
  have hSI := traceWalk_startIndex_lt repo walked (cs.length + 1)
    cs bs oid k none none false
    (fun p h2 => Option.noConfusion h2) (fun x h2 => Option.noConfusion h2)
  unfold traceBranch
  dsimp only
  split
  · exact hWalk j
  · by_cases hjk : j = k
    · subst hjk
      by_cases hlt : j < (traceWalk repo (indicesOf walked) (cs.length + 1)
          cs bs oid j none none false).branches.length
      · rw [updateAt_getD_self _ j _ default hlt]
        dsimp only
        cases heqR : ((traceWalk repo (indicesOf walked) (cs.length + 1) cs bs
            oid j none none false).branches.getD j default).range.1 with
        | none => exact rangeOK_fst_none _
        | some e =>
          cases heqSI : (traceWalk repo (indicesOf walked) (cs.length + 1) cs bs
              oid j none none false).startIndex with
          | none => exact rangeOK_snd_none _
          | some si =>
            dsimp only
            by_cases hns : si < (e : Int)
            · rw [if_pos hns]
              exact trivial
            · rw [if_neg hns]
              show e ≤ usizeOfInt si
              have hsi := hSI si heqSI
              unfold usizeOfInt
              omega
      · rw [updateAt_of_le _ j _ (Nat.le_of_not_lt hlt)]
        exact hWalk j
    · rw [updateAt_getD_ne _ k _ j default hjk]
      exact hWalk j

/-- a successful downward remap lands on the nearest surviving position:
everything strictly between it and the starting bound is mapped but
dead. -/
theorem remapDown_spec (im : Nat → Option (Option Nat)) :
    ∀ (fuel p t : Nat), remapDown im p fuel = .ok t →
    ∃ q, q ≤ p ∧ im q = some (some t) ∧
      ∀ r, q < r → r ≤ p → im r = some none := by
  intro fuel
  induction fuel with
  | zero => intro p t h; cases h
  | succ fuel ih =>
    intro p t h
    unfold remapDown at h
    split at h
    · cases h
    · next heq =>
      split at h
      · cases h
      · next hne =>
        have hp0 : p ≠ 0 := by simpa using hne
        obtain ⟨q, hq1, hq2, hq3⟩ := ih (p - 1) t h
        refine ⟨q, by omega, hq2, ?_⟩
        intro r hr1 hr2
        by_cases hrp : r = p
        · rw [hrp]
          exact heq
        · exact hq3 r hr1 (by omega)
    · next f heq =>
      refine ⟨p, Nat.le_refl p, ?_, ?_⟩
      · rw [← Except.ok.inj h]
        exact heq
      · intro r hr1 hr2
        exact absurd (Nat.lt_of_lt_of_le hr1 hr2) (Nat.lt_irrefl p)

/-- a successful upward remap lands on the nearest surviving position:
everything between the starting bound and it is mapped but dead (the
advancing `start_idx += 1` loop of `GitGraph::new`). -/
theorem remapUp_spec (im : Nat → Option (Option Nat)) :
    ∀ (fuel p t : Nat), remapUp im p fuel = .ok t →
    ∃ q, p ≤ q ∧ im q = some (some t) ∧
      ∀ r, p ≤ r → r < q → im r = some none := by
  intro fuel
  induction fuel with
  | zero => intro p t h; cases h
  | succ fuel ih =>
    intro p t h
    unfold remapUp at h
    split at h
    · cases h
    · next heq =>
      obtain ⟨q, hq1, hq2, hq3⟩ := ih (p + 1) t h
      refine ⟨q, by omega, hq2, ?_⟩
      intro r hr1 hr2
      by_cases hrp : r = p
      · rw [hrp]
        exact heq
      · exact hq3 r (by omega) hr2
    · next f heq =>
      refine ⟨p, Nat.le_refl p, ?_, ?_⟩
      · rw [← Except.ok.inj h]
        exact heq
      · intro r hr1 hr2
        exact absurd (Nat.lt_of_le_of_lt hr1 hr2) (Nat.lt_irrefl p)

/-- a successful range remap over a valid, monotone surviving-position
map yields an ordered range with both bounds inside the filtered
sequence, provided some position inside the range survives (then the
advancing and retreating loops cannot cross each other). -/
theorem remapBranchRange_ok_bounds (im : Nat → Option (Option Nat))
    (L fuel : Nat) (b b2 : BranchInfo)
    (h1 : ∀ n v, im n = some (some v) → v < L)
    (h2 : ∀ p q vp vq, p ≤ q → im p = some (some vp) →
      im q = some (some vq) → vp ≤ vq)
    (hb : ∀ e s, b.range = (some e, some s) →
      e ≤ s ∧ ∃ p v, e ≤ p ∧ p ≤ s ∧ im p = some (some v))
    (hSuc : remapBranchRange im fuel b = .ok b2) :
    ∀ e2 s2, b2.range.1 = some e2 → b2.range.2 = some s2 →
      e2 ≤ s2 ∧ e2 < L ∧ s2 < L := by
  intro e2 s2 he hs
  unfold remapBranchRange at hSuc
  split at hSuc
  · next startIdx heqS =>
    split at hSuc
    · cases hSuc
    · next s heqUp =>
      split at hSuc
      · next endIdx heqE =>
        split at hSuc
        · cases hSuc
        · next t heqDn =>
          have hb2 := Except.ok.inj hSuc
          rw [← hb2] at he hs
          dsimp only at he hs
          obtain ⟨hle, p, v, hpe, hps, hv⟩ := hb startIdx endIdx
            (Prod.ext_iff.mpr ⟨heqS, heqE⟩)
          obtain ⟨q1, hq11, hq12, hq13⟩ := remapUp_spec im fuel startIdx s heqUp
          obtain ⟨q2, hq21, hq22, hq23⟩ := remapDown_spec im fuel endIdx t heqDn
          have hq1p : q1 ≤ p := by
            by_contra hlt1
            push_neg at hlt1
            have hdead := hq13 p hpe hlt1
            rw [hv] at hdead
            exact Option.noConfusion (Option.some.inj hdead)
          have hpq2 : p ≤ q2 := by
            by_contra hlt2
            push_neg at hlt2
            have hdead := hq23 p hlt2 hps
            rw [hv] at hdead
            exact Option.noConfusion (Option.some.inj hdead)
          have hmono := h2 q1 q2 s t (Nat.le_trans hq1p hpq2) hq12 hq22
          have he2 := Option.some.inj he
          have hs2 := Option.some.inj hs
          have hsL := h1 q1 s hq12
          have htL := h1 q2 t hq22
          refine ⟨by omega, by omega, by omega⟩
      · next heqE =>
        have hb2 := Except.ok.inj hSuc
        rw [← hb2] at hs
        dsimp only at hs
        cases hs
  · next heqS =>
    split at hSuc
    · next endIdx heqE =>
      split at hSuc
      · cases hSuc
      · next t heqDn =>
        have hb2 := Except.ok.inj hSuc
        rw [← hb2] at he
        dsimp only at he
        cases he
    · next heqE =>
      have hb2 := Except.ok.inj hSuc
      rw [← hb2] at he
      rw [heqS] at he
      cases he

/-- C7: range validity.  After `trace_branch`'s post-walk
reconciliation every branch's range with both bounds present has its
first bound at most its second; and when consolidation remaps a range
onto the filtered sequence (over a valid monotone surviving-position
map, with some position inside the range surviving), the resulting
bounds — found by the advancing and retreating loops — remain ordered
and are valid positions of the filtered sequence. -/
theorem C7_theorem :
    (∀ (repo : Repo) (walked : List CommitData) (cs : List CommitInfo)
        (bs : List BranchInfo) (oid : Oid) (k : Nat),
      walked.length < 18446744073709551616 →
      (∀ j, RangeOK ((bs.getD j default).range)) →
      ∀ j, RangeOK (((traceBranch repo (indicesOf walked) cs bs oid
        k).branches.getD j default).range))
    ∧ (∀ (im : Nat → Option (Option Nat)) (L fuel : Nat) (b b2 : BranchInfo),
      (∀ n v, im n = some (some v) → v < L) →
      (∀ p q vp vq, p ≤ q → im p = some (some vp) →
        im q = some (some vq) → vp ≤ vq) →
      (∀ e s, b.range = (some e, some s) →
        e ≤ s ∧ ∃ p v, e ≤ p ∧ p ≤ s ∧ im p = some (some v)) →
      remapBranchRange im fuel b = .ok b2 →
      ∀ e2 s2, b2.range.1 = some e2 → b2.range.2 = some s2 →
        e2 ≤ s2 ∧ e2 < L ∧ s2 < L) :=
  ⟨fun repo walked cs bs oid k hW hPre =>
    traceBranch_rangeOK repo walked cs bs oid k hW hPre,
   fun im L fuel b b2 h1 h2 hb hSuc =>
    remapBranchRange_ok_bounds im L fuel b b2 h1 h2 hb hSuc⟩

/-- C7 witness: both parts applied at concrete inputs — the first
input's `master` trace, and a surviving-position map where the range
`[1, 3]` starts on a dead position, so the advancing loop moves its
first bound to the surviving position 2 and the result is `[1, 2]`. -/
theorem C7_witness :
    (∀ j, RangeOK (((traceBranch exRepo1 (indicesOf exWalked1) exCommits1
      exBranches1 10 0).branches.getD j default).range))
    ∧ (∀ e2 s2, exRemapOut.range.1 = some e2 → exRemapOut.range.2 = some s2 →
        e2 ≤ s2 ∧ e2 < 3 ∧ s2 < 3) := by
  constructor
  · refine C7_theorem.1 exRepo1 exWalked1 exCommits1 exBranches1 10 0
      (by decide) ?_
    intro j
    match j with
    | 0 => decide
    | 1 => decide
    | 2 => decide
    | n + 3 =>
      have hl : exBranches1.length = 3 := by decide
      rw [getD_of_le exBranches1 (n + 3) default (by omega)]
      exact trivial
  · refine C7_theorem.2 exRemapIm 3 5 exRemapBranch exRemapOut ?_ ?_ ?_ ?_
    · intro n v h
      rcases n with _ | _ | _ | _ | n <;> simp [exRemapIm] at h <;> omega
    · intro p q vp vq hpq hp hq
      rcases p with _ | _ | _ | _ | p <;> rcases q with _ | _ | _ | _ | q <;>
        simp [exRemapIm] at hp hq <;> omega
    · intro e s h
      have h1 : exRemapBranch.range = (some 1, some 3) := rfl
      rw [h1] at h
      have h2 := Prod.ext_iff.mp h
      have h3 := Option.some.inj h2.1
      have h4 := Option.some.inj h2.2
      refine ⟨by omega, 2, 1, by omega, by omega, rfl⟩
    · rfl

end GitGraphModel
